import Mathlib

/-!
Verification development for the `vietnam-legal-rag-agent` repository.

The core under study is `tools/docx_chunker.py`: a single-pass chunker that
turns a list of normalized document lines into bounded-length chunks, plus a
small API-key validator (`app/api/chat_messages.py`) and metadata loading.

Python strings are modelled as `List Char` (Python indexes by code point).
Python `while` loops are modelled with explicit fuel returning `Option`;
`none` means the fuel bound was exhausted (used to exhibit divergence).
-/

set_option maxRecDepth 100000

namespace DocxChunker

/-- Strings of the Python program, as lists of unicode code points. -/
abbrev Str := List Char

/-- Python whitespace test (`str.strip`, regex `\s`), restricted to the
whitespace code points that can occur in this program's data: ASCII
whitespace plus the no-break space handled by `clean_line`. -/
def pyIsSpace (c : Char) : Bool :=
  c = ' ' || c = '\t' || c = '\n' || c = '\r' || c = '\x0b' || c = '\x0c' || c = ' '

/-- Drop leading characters satisfying `p` (Python `lstrip`). -/
def lstripBy (p : Char → Bool) (l : Str) : Str := l.dropWhile p

/-- Drop trailing characters satisfying `p` (Python `rstrip`). -/
def rstripBy (p : Char → Bool) (l : Str) : Str := (l.reverse.dropWhile p).reverse

/-- Python `s.rstrip()`. -/
def pyRstrip (l : Str) : Str := rstripBy pyIsSpace l

/-- Python `s.strip()`. -/
def pyStrip (l : Str) : Str := lstripBy pyIsSpace (rstripBy pyIsSpace l)

/-- Python `s.strip("\n")`. -/
def stripNl (l : Str) : Str := lstripBy (· = '\n') (rstripBy (· = '\n') l)

/-- Python slice index normalization: negative indices count from the end,
all indices are clamped to `[0, n]`. -/
def pyIdx (n : Nat) (a : Int) : Nat :=
  if a < 0 then ((n : Int) + a).toNat else min a.toNat n

/-- Python `t[a:b]` for integer indices. -/
def pySlice (t : Str) (a b : Int) : Str :=
  let s := pyIdx t.length a
  let e := pyIdx t.length b
  (t.drop s).take (e - s)

/-- Python `t[a:]`. -/
def pySliceFrom (t : Str) (a : Int) : Str := t.drop (pyIdx t.length a)

/-- Python `t[:b]` for a natural index. -/
def takeN (t : Str) (b : Nat) : Str := t.take b

/-- Python `t[s:e]` for natural indices. -/
def sliceN (t : Str) (s e : Nat) : Str := (t.drop s).take (e - s)

/-- Index of the last occurrence of `c` in `l`, offset by `base`, threaded
through an accumulator; helper for `pyRfind`. -/
def rfindGo (c : Char) : Str → Nat → Option Nat → Option Nat
  | [], _, acc => acc
  | x :: xs, i, acc => rfindGo c xs (i + 1) (if x = c then some i else acc)

/-- Python `t.rfind(c, a, b)`: highest index of `c` within the slice
`t[a:b]`, as an absolute index of `t`; `none` models Python's `-1`. -/
def pyRfind (c : Char) (t : Str) (a b : Int) : Option Nat :=
  let s := pyIdx t.length a
  let e := pyIdx t.length b
  (rfindGo c ((t.drop s).take (e - s)) 0 none).map (· + s)

/-- Number of leading characters of `l` satisfying `p`. -/
def countWhile (p : Char → Bool) : Str → Nat
  | [] => 0
  | c :: rest => if p c then countWhile p rest + 1 else 0

/-- Case folding restricted to the characters this program compares
case-insensitively: ASCII letters and the Vietnamese letters appearing in
the keywords of `CHAPTER_RE`, `ARTICLE_RE` and `QUOTED_TITLE_RE`. -/
def ciLower (c : Char) : Char :=
  if c = 'Đ' then 'đ' else if c = 'Ề' then 'ề' else if c = 'Ả' then 'ả'
  else if c = 'Ư' then 'ư' else if c = 'Ơ' then 'ơ'
  else if 'A' ≤ c ∧ c ≤ 'Z' then Char.ofNat (c.toNat + 32) else c

/-- Case-insensitive prefix test against an (already lowercase) pattern. -/
def ciStarts (pat : Str) (l : Str) : Bool :=
  (l.take pat.length).map ciLower = pat

/-- The constant `MAX_CONTENT_LEN` of `docx_chunker.py`. -/
def MAX_CONTENT_LEN : Nat := 1500

/-- Keyword of `CHAPTER_RE`, lowercase. -/
def kwChuong : Str := "chương".data

/-- Keyword of `ARTICLE_RE` and first alternative of `QUOTED_TITLE_RE`,
lowercase. -/
def kwDieu : Str := "điều".data

/-- Second alternative of `QUOTED_TITLE_RE`, lowercase. -/
def kwKhoan : Str := "khoản".data

/-- Roman-numeral letter class of `CHAPTER_RE` (`(?i:[ivxlcdm]+)`). -/
def isRoman (c : Char) : Bool :=
  let l := ciLower c
  l = 'i' || l = 'v' || l = 'x' || l = 'l' || l = 'c' || l = 'd' || l = 'm'

/-- Helper for the final `(.*)$` of the anchored header regexes: the `.*`
part (which cannot cross a line break) followed by the end-of-string test
(`$` also matches just before one final newline). Returns the title text
when `$` can match. -/
def dotStarEnd (l : Str) : Option Str :=
  let title := l.takeWhile (· ≠ '\n')
  match l.drop title.length with
  | [] => some title
  | ['\n'] => some title
  | _ => none

/-- Deterministic scanner for `CHAPTER_RE`:
`^\s*(?i:chương)\s+(?P<num>(?i:[ivxlcdm]+)|\d+)\s*[:\.]?\s*(?P<title>.*)$`.
Returns the raw `num` and `title` groups on a match. -/
def chapterMatch (line : Str) : Option (Str × Str) :=
  let l1 := line.drop (countWhile pyIsSpace line)
  if ciStarts kwChuong l1 then
    let l2 := l1.drop kwChuong.length
    let w1 := countWhile pyIsSpace l2
    if w1 = 0 then none else
    let l3 := l2.drop w1
    let r := countWhile isRoman l3
    let numLen := if r > 0 then r else countWhile Char.isDigit l3
    if numLen = 0 then none else
    let num := l3.take numLen
    let l4 := l3.drop numLen
    let l5 := l4.drop (countWhile pyIsSpace l4)
    let l6 := match l5 with
      | ':' :: rest => rest
      | '.' :: rest => rest
      | _ => l5
    let l7 := l6.drop (countWhile pyIsSpace l6)
    (dotStarEnd l7).map (fun title => (num, title))
  else none

/-- Deterministic scanner for `ARTICLE_RE`:
`^\s*(?i:điều)\s+(?P<num>\d+)\.\s*(?P<title>.*)$`. -/
def articleMatch (line : Str) : Option (Str × Str) :=
  let l1 := line.drop (countWhile pyIsSpace line)
  if ciStarts kwDieu l1 then
    let l2 := l1.drop kwDieu.length
    let w1 := countWhile pyIsSpace l2
    if w1 = 0 then none else
    let l3 := l2.drop w1
    let d := countWhile Char.isDigit l3
    if d = 0 then none else
    let num := l3.take d
    match l3.drop d with
    | '.' :: l4 =>
      let l5 := l4.drop (countWhile pyIsSpace l4)
      (dotStarEnd l5).map (fun title => (num, title))
    | _ => none
  else none

/-- Source `parse_chapter_inline`: on a `CHAPTER_RE` match, return the line,
the stripped number and the stripped inline title. -/
def parse_chapter_inline (line : Str) : Option (Str × Str × Str) :=
  (chapterMatch line).map (fun (num, title) => (line, pyStrip num, pyStrip title))

/-- Literal prefix of a canonical article header. -/
def litDieuSp : Str := "Điều ".data

/-- Literal prefix of a chapter display name. -/
def litChuongSp : Str := "Chương ".data

/-- Literal `". "` used between number and title in display names. -/
def litDotSp : Str := ". ".data

/-- Source `is_article_header`: on an `ARTICLE_RE` match, return the
canonical header `"Điều <num>." + (" " + title if title else "")`, the
number and the title. -/
def is_article_header (line : Str) : Option (Str × Str × Str) :=
  (articleMatch line).map (fun (num, title) =>
    let n := pyStrip num
    let t := pyStrip title
    (litDieuSp ++ n ++ ['.'] ++ (if t ≠ [] then ' ' :: t else []), n, t))

/-- Match attempt for `KHOAN_HEAD_RE`'s body `\s*\d+\.\s` at the start of
`l`; returns the consumed length on success. -/
def khoanTry (l : Str) : Option Nat :=
  let w := countWhile pyIsSpace l
  let l1 := l.drop w
  let d := countWhile Char.isDigit l1
  if d = 0 then none else
  if (l1.drop d).head? = some '.' ∧ (((l1.drop d).drop 1).head?.any pyIsSpace) = true then
    some (w + d + 2)
  else none

/-- Scanner implementing `re.finditer(KHOAN_HEAD_RE, body)` restricted to
match start positions: walks the text one character per step, attempting
the pattern only at `(?m)^` positions outside a previous match; `skip`
counts the characters of the current match still to be consumed, so that
matches never overlap and scanning resumes at each match end. -/
def khoanScan : Str → Nat → Nat → Bool → List Nat
  | [], _, _, _ => []
  | c :: rest, p, skip + 1, _ => khoanScan rest (p + 1) skip (c = '\n')
  | c :: rest, p, 0, atStart =>
    if atStart then
      match khoanTry (c :: rest) with
      | some len => p :: khoanScan rest (p + 1) (len - 1) (c = '\n')
      | none => khoanScan rest (p + 1) 0 (c = '\n')
    else khoanScan rest (p + 1) 0 (c = '\n')

/-- Start offsets of the `KHOAN_HEAD_RE` matches in `body`
(`[m.start() for m in KHOAN_HEAD_RE.finditer(body_text)]`). -/
def khoanStarts (body : Str) : List Nat := khoanScan body 0 0 true

/-- Consecutive pairing of clause-marker starts with the following start
(or end of body), mirroring the `for idx, s in enumerate(starts)` loop. -/
def pairBlocks : List Nat → Nat → List (Nat × Nat)
  | [], _ => []
  | [s], n => [(s, n)]
  | s :: s' :: r, n => (s, s') :: pairBlocks (s' :: r) n

/-- The clause blocks of `split_article_content` step 1: the whole body when
no clause marker matches, else an optional preamble block followed by one
block per marker. -/
def blocksOf (body : Str) : List (Nat × Nat) :=
  match khoanStarts body with
  | [] => [(0, body.length)]
  | s0 :: rest => (if 0 < s0 then [(0, s0)] else []) ++ pairBlocks (s0 :: rest) body.length

/-- Source `leading_khoan_title`: the stripped first line of `segment` when
it matches `^\s*\d+\.\s`. -/
def leading_khoan_title (segment : Str) : Option Str :=
  let first_line := segment.takeWhile (· ≠ '\n')
  if (khoanTry first_line).isSome then some (pyStrip first_line) else none

/-- Style tag of a quote span (`"curly"` or `"dbl"` in the source). -/
inductive QKind where
  | curly : QKind
  | dbl : QKind
deriving DecidableEq, Repr

/-- One quote span `(start, end_or_None, kind)`; `stop = none` is an
open-ended span reaching the end of the text. -/
structure QSpan where
  start : Nat
  stop : Option Nat
  kind : QKind
deriving DecidableEq, Repr

/-- The curly-quote pass of `compute_quote_spans`: a stack of unmatched
open-marker offsets (head = most recent) and the closed spans recorded so
far, in close order. -/
def curlyGo : Str → Nat → List Nat → List QSpan → List Nat × List QSpan
  | [], _, stack, spans => (stack, spans)
  | c :: rest, i, stack, spans =>
    if c = '“' then curlyGo rest (i + 1) (i :: stack) spans
    else if c = '”' then
      match stack with
      | s0 :: st => curlyGo rest (i + 1) st (spans ++ [⟨s0, some (i + 1), QKind.curly⟩])
      | [] => curlyGo rest (i + 1) [] spans
    else curlyGo rest (i + 1) stack spans

/-- Curly spans of a text: closed spans in close order, then the offsets
still on the stack (oldest first, as Python iterates the list) as
open-ended spans. -/
def curlySpans (t : Str) : List QSpan :=
  let (stack, spans) := curlyGo t 0 [] []
  spans ++ stack.reverse.map (fun s0 => ⟨s0, none, QKind.curly⟩)

/-- Offsets of the straight-quote characters of `t`, in order. -/
def dblPositions (t : Str) : List Nat :=
  (t.enum.filter (fun ic => ic.2 = '"')).map Prod.fst

/-- Consecutive pairing of straight-quote offsets (1st with 2nd, 3rd with
4th, ...); a trailing unpaired offset yields an open-ended span. -/
def pairUp : List Nat → List QSpan
  | [] => []
  | [x] => [⟨x, none, QKind.dbl⟩]
  | x :: y :: r => ⟨x, some (y + 1), QKind.dbl⟩ :: pairUp r

/-- Stable insertion of a span in front of the first strictly-later start
(the element being inserted comes from earlier in the original list). -/
def insSpan (a : QSpan) : List QSpan → List QSpan
  | [] => [a]
  | b :: l => if b.start < a.start then b :: insSpan a l else a :: b :: l

/-- Stable insertion sort by `start`, modelling Python's stable
`spans.sort(key=lambda x: x[0])`. -/
def sortSpans : List QSpan → List QSpan
  | [] => []
  | a :: l => insSpan a (sortSpans l)

/-- Source `compute_quote_spans`: curly spans, then straight-quote spans,
sorted by start (stable, no coalescing). -/
def compute_quote_spans (t : Str) : List QSpan :=
  sortSpans (curlySpans t ++ pairUp (dblPositions t))

/-- Source `is_offset_in_any_span`: membership of `offset` in some closed
span's half-open interval, or at/after some open-ended span's start. -/
def is_offset_in_any_span (offset : Nat) (spans : List QSpan) : Bool :=
  spans.any (fun sp =>
    match sp.stop with
    | none => decide (sp.start ≤ offset)
    | some e => decide (sp.start ≤ offset) && decide (offset < e))

/-- Match attempt for `QUOTED_TITLE_RE`
(`[“\"]\s*(?i:(Điều|khoản|\d+\.))\s+.*`) at the start of `l`; returns the
total match length. -/
def qtMatchLen (l : Str) : Option Nat :=
  match l with
  | c :: l1 =>
    if c = '“' || c = '"' then
      let w := countWhile pyIsSpace l1
      let l2 := l1.drop w
      let keyLen : Option Nat :=
        if ciStarts kwDieu l2 then some kwDieu.length
        else if ciStarts kwKhoan l2 then some kwKhoan.length
        else
          let d := countWhile Char.isDigit l2
          if d = 0 then none
          else match l2.drop d with
            | '.' :: _ => some (d + 1)
            | _ => none
      match keyLen with
      | none => none
      | some k =>
        let l3 := l2.drop k
        let w2 := countWhile pyIsSpace l3
        if w2 = 0 then none
        else
          let l4 := l3.drop w2
          some (1 + w + k + w2 + (l4.takeWhile (· ≠ '\n')).length)
    else none
  | [] => none

/-- Leftmost `QUOTED_TITLE_RE` match: `re.search` scanning positions left to
right; returns `(m.start(), m.end())`. -/
def qtSearch : Str → Nat → Option (Nat × Nat)
  | [], _ => none
  | c :: rest, p =>
    match qtMatchLen (c :: rest) with
    | some len => some (p, p + len)
    | none => qtSearch rest (p + 1)

/-- Index of the first occurrence of `c`, offset by `base`; helper for the
forward `str.find`. -/
def findGo (c : Char) : Str → Nat → Option Nat
  | [], _ => none
  | x :: xs, i => if x = c then some i else findGo c xs (i + 1)

/-- First newline of `t` at an index `≥ s` (Python `t.find("\n", s)`),
defaulting to `t.length` as in the source's `-1` handling. -/
def findNlFrom (t : Str) (s : Nat) : Nat :=
  match findGo '\n' (t.drop s) 0 with
  | some j => s + j
  | none => t.length

/-- Last newline of `t` strictly before `e` (`t.rfind("\n", 0, e)`),
as an option. -/
def rfindNlBefore (t : Str) (e : Nat) : Option Nat :=
  rfindGo '\n' (t.take e) 0 none

/-- Source `first_quoted_title_line`: the whole (stripped) line containing
the first `QUOTED_TITLE_RE` match. -/
def first_quoted_title_line (t : Str) : Option Str :=
  match qtSearch t 0 with
  | none => none
  | some (ms, me) =>
    let s : Nat := match rfindNlBefore t ms with
      | some j => j + 1
      | none => 0
    let e := findNlFrom t me
    some (pyStrip (sliceN t s e))

/-- The split position chosen by one iteration of
`split_long_text_at_sentence`: after the right-most period in `[i, e)` if
one lies strictly past `i`, else after the right-most newline, else the
hard cut at `e`. -/
def sltasSplit (text : Str) (i e : Int) : Int :=
  let nlSplit : Int :=
    match pyRfind '\n' text i e with
    | some nl => if (nl : Int) > i then (nl : Int) + 1 else e
    | none => e
  match pyRfind '.' text i e with
  | some p => if (p : Int) > i then (p : Int) + 1 else nlSplit
  | none => nlSplit

/-- The `while i < n` loop of `split_long_text_at_sentence`, with explicit
fuel; `none` models non-termination within the given fuel. -/
def sltasGo (text : Str) (limit : Int) : Nat → Int → List Str → Option (List Str)
  | 0, _, _ => none
  | fuel + 1, i, acc =>
    if i < (text.length : Int) then
      let e := min (i + limit) (text.length : Int)
      if e = (text.length : Int) then
        some (acc ++ [pyRstrip (pySliceFrom text i)])
      else
        let split := sltasSplit text i e
        sltasGo text limit fuel split (acc ++ [pyRstrip (pySlice text i split)])
    else some acc

/-- Source `split_long_text_at_sentence text limit`, run with the given
fuel. -/
def split_long_text_at_sentence (text : Str) (limit : Int) (fuel : Nat) : Option (List Str) :=
  sltasGo text limit fuel 0 []

/-- Traced variant of the same loop recording, for each emitted part, the
loop index `i` at which its text begins in `text`. -/
def sltasGoTr (text : Str) (limit : Int) : Nat → Int → List (Int × Str) → Option (List (Int × Str))
  | 0, _, _ => none
  | fuel + 1, i, acc =>
    if i < (text.length : Int) then
      let e := min (i + limit) (text.length : Int)
      if e = (text.length : Int) then
        some (acc ++ [(i, pyRstrip (pySliceFrom text i))])
      else
        let split := sltasSplit text i e
        sltasGoTr text limit fuel split (acc ++ [(i, pyRstrip (pySlice text i split))])
    else some acc

/-- Traced `split_long_text_at_sentence`: parts paired with their actual
start index in `text`. -/
def sltasTrace (text : Str) (limit : Int) (fuel : Nat) : Option (List (Int × Str)) :=
  sltasGoTr text limit fuel 0 []

/-- Cumulative part offsets as the source computes them
(`offsets.append(base); base += len(p)` over the already r-stripped
parts). -/
def partOffsets (parts : List Str) : List Nat :=
  (parts.foldl (fun st p => (st.1 ++ [st.2], st.2 + p.length)) (([] : List Nat), 0)).1

/-- Recursive presentation of the cumulative offsets, used to reason about
`partOffsets`. -/
def offsetsFrom (base : Nat) : List Str → List Nat
  | [] => []
  | p :: ps => base :: offsetsFrom (base + p.length) ps

/-- One output chunk `{content, chapter, article}`. -/
structure Chunk where
  content : Str
  chapter : Str
  article : Str
deriving DecidableEq, Repr

/-- Python truthiness of an optional string (`if x:` with `x: str | None`). -/
def optTruthy (o : Option Str) : Bool :=
  match o with
  | some s => s ≠ []
  | none => false

/-- State of the block loop of `split_article_content`: emitted chunks and
the pending coalescing buffer. -/
structure SacSt where
  out : List Chunk
  buf : Str
deriving Repr

/-- Source `flush_buf`: emit `header + "\n" + buf.strip()` unless the buffer
strips to nothing; a flushed buffer is reset. -/
def flush_buf (header_line chapter : Str) (st : SacSt) : SacSt :=
  if pyStrip st.buf = [] then st
  else ⟨st.out ++ [⟨header_line ++ '\n' :: pyStrip st.buf, chapter, header_line⟩], []⟩

/-- The chunk built for one sentence-level part (the body of the
`for idx, part in enumerate(parts)` loop). -/
def partChunk (header_line chapter : Str) (khoan_title quoted_title : Option Str)
    (spans : List QSpan) (offsets : List Nat) (idx : Nat) (part : Str) : Chunk :=
  let start_off := offsets.getD idx 0
  let in_quote_here := is_offset_in_any_span start_off spans
  let ctx1 : List Str := [header_line]
  let ctx2 := if 0 < idx ∧ optTruthy khoan_title then ctx1 ++ [khoan_title.getD []] else ctx1
  let first_line := pyStrip (part.takeWhile (· ≠ '\n'))
  let ctx3 :=
    if in_quote_here ∧ optTruthy quoted_title ∧ pyStrip (quoted_title.getD []) ≠ first_line
    then ctx2 ++ [quoted_title.getD []] else ctx2
  ⟨List.intercalate ['\n'] ctx3 ++ '\n' :: pyStrip part, chapter, header_line⟩

/-- Modelled from the spec (section 4.5): the chunk content of one
sentence-level part — the newline join of the header line; the clause title
only for a non-first part when one exists; the quoted title only when the
part's tracked starting offset lies inside a quote span, a quoted title
exists and it is not already the part's own first line; then the trimmed
part text. -/
def specPartContent (header_line : Str) (clause quoted : Option Str) (inQuote : Bool)
    (idx : Nat) (part : Str) : Str :=
  List.intercalate ['\n']
    ([header_line] ++
      (if 0 < idx ∧ optTruthy clause then [clause.getD []] else []) ++
      (if inQuote ∧ optTruthy quoted ∧
          pyStrip (quoted.getD []) ≠ pyStrip (part.takeWhile (· ≠ '\n'))
        then [quoted.getD []] else [])) ++ '\n' :: pyStrip part

/-- Sentence-level split of one oversized block (step 3 of
`split_article_content`): compute the clause title, quote spans and quoted
title of the segment, split it with per-part limit
`MAX_CONTENT_LEN - len(header_line) - 1`, and emit one chunk per part. -/
def sacSentenceChunks (header_line chapter segment : Str) (fuel : Nat) : Option (List Chunk) :=
  let khoan_title := leading_khoan_title segment
  let spans := compute_quote_spans segment
  let quoted_title := first_quoted_title_line segment
  match split_long_text_at_sentence segment
      ((MAX_CONTENT_LEN : Int) - (header_line.length : Int) - 1) fuel with
  | none => none
  | some parts =>
    let offsets := partOffsets parts
    some (parts.enum.map (fun ip =>
      partChunk header_line chapter khoan_title quoted_title spans offsets ip.1 ip.2))

/-- The `for (s, e) in blocks` loop of `split_article_content`. -/
def sacBlocks (header_line chapter body : Str) (fuel : Nat) :
    List (Nat × Nat) → SacSt → Option SacSt
  | [], st => some st
  | (s, e) :: rest, st =>
    let segment := stripNl (sliceN body s e)
    if header_line.length + 1 + segment.length ≤ MAX_CONTENT_LEN then
      let candidate := if st.buf = [] then segment else st.buf ++ '\n' :: segment
      if header_line.length + 1 + candidate.length ≤ MAX_CONTENT_LEN then
        sacBlocks header_line chapter body fuel rest ⟨st.out, candidate⟩
      else
        sacBlocks header_line chapter body fuel rest
          ⟨(flush_buf header_line chapter st).out, segment⟩
    else
      let st1 := flush_buf header_line chapter st
      match sacSentenceChunks header_line chapter segment fuel with
      | none => none
      | some cs => sacBlocks header_line chapter body fuel rest ⟨st1.out ++ cs, st1.buf⟩

/-- Source `split_article_content header_line body_text chapter`: one chunk
when the full content fits in `MAX_CONTENT_LEN`, else the clause-block
decomposition with greedy coalescing and sentence-level splitting.
`none` models non-termination of the sentence splitter. -/
def split_article_content (header_line body_text chapter : Str) : Option (List Chunk) :=
  let content_full := header_line ++ (if body_text ≠ [] then '\n' :: body_text else [])
  if content_full.length ≤ MAX_CONTENT_LEN then
    some [⟨content_full, chapter, header_line⟩]
  else
    match sacBlocks header_line chapter body_text (body_text.length + 1)
        (blocksOf body_text) ⟨[], []⟩ with
    | none => none
    | some st =>
      some (if st.buf ≠ [] then (flush_buf header_line chapter st).out else st.out)

/-- Source `build_chapter_name`: inline title if present; else adopt a
truthy next line that is neither a chapter nor an article header; else the
bare label. -/
def build_chapter_name (line num inline_title : Str) (next_line : Option Str) : Str :=
  if inline_title ≠ [] then litChuongSp ++ num ++ litDotSp ++ inline_title
  else
    match next_line with
    | some nl =>
      if nl ≠ [] ∧ (chapterMatch nl).isNone ∧ (articleMatch nl).isNone then
        litChuongSp ++ num ++ litDotSp ++ nl
      else litChuongSp ++ num
    | none => litChuongSp ++ num

/-- The end-of-document sentinel `./.`. -/
def endMarker : Str := "./.".data

/-- Source `END_APPENDIX_LINE_RE` (`^\s*\./\.\s*$`): the line consists of
the sentinel alone, up to surrounding whitespace. -/
def endLineMatches (l : Str) : Bool := pyStrip l = endMarker

/-- Source `END_APPENDIX_ANY_RE.search` (`\./\.`): start offset of the first
inline occurrence of the sentinel. -/
def endAnySearch : Str → Nat → Option Nat
  | '.' :: '/' :: '.' :: _, p => some p
  | _ :: rest, p => endAnySearch rest (p + 1)
  | [], _ => none

/-- State of the `chunk_by_articles` scan. -/
structure CState where
  chapter : Option Str
  article : Option Str
  body : List Str
  chunks : List Chunk
deriving Repr

/-- Python truthiness of `current_article_full` (`if current_article_full:`). -/
def articleOpen (s : CState) : Bool :=
  match s.article with
  | some a => a ≠ []
  | none => false

/-- Source `flush_article`: convert the open article (if any) into chunks
via `split_article_content`; `none` propagates splitter divergence. -/
def flushArticle (s : CState) : Option CState :=
  match s.article with
  | none => some s
  | some h =>
    match split_article_content h (pyStrip (List.intercalate ['\n'] s.body))
        (s.chapter.getD []) with
    | none => none
    | some cs => some { s with chunks := s.chunks ++ cs }

/-- The `while i < n` loop of `chunk_by_articles`, one line per step; the
halting branches (end sentinel) return the flushed chunks directly and
ignore the remaining lines. -/
def processLines : List Str → CState → Option (List Chunk)
  | [], s => (flushArticle s).map CState.chunks
  | line :: rest, s =>
    match parse_chapter_inline line with
    | some (chapter_line, num, inline_title) =>
      match flushArticle s with
      | none => none
      | some s1 =>
        processLines rest
          { chapter := some (build_chapter_name chapter_line num inline_title rest.head?),
            article := none, body := [], chunks := s1.chunks }
    | none =>
      match is_article_header line with
      | some (article_full, _, _) =>
        match flushArticle s with
        | none => none
        | some s1 =>
          processLines rest
            { chapter := s1.chapter, article := some article_full, body := [],
              chunks := s1.chunks }
      | none =>
        if articleOpen s then
          if endLineMatches line then (flushArticle s).map CState.chunks
          else
            match endAnySearch line 0 with
            | some ms =>
              let before := takeN line ms
              let s1 := if pyStrip before ≠ []
                then { s with body := s.body ++ [pyRstrip before] } else s
              (flushArticle s1).map CState.chunks
            | none => processLines rest { s with body := s.body ++ [line] }
        else processLines rest s

/-- Source `chunk_by_articles`. -/
def chunk_by_articles (lines : List Str) : Option (List Chunk) :=
  processLines lines ⟨none, none, [], []⟩

/-- Modelled from the spec's chapter display-name rule (section 4.2): inline
title if present; else, if the single next line is itself neither a
Chapter- nor an Article-header, adopt it verbatim; else the bare label. -/
def chapterDisplayNameSpec (num inline_title : Str) (next_line : Option Str) : Str :=
  if inline_title ≠ [] then litChuongSp ++ num ++ litDotSp ++ inline_title
  else
    match next_line with
    | some nl =>
      if (chapterMatch nl).isNone ∧ (articleMatch nl).isNone then
        litChuongSp ++ num ++ litDotSp ++ nl
      else litChuongSp ++ num
    | none => litChuongSp ++ num

/-- Declarative membership of an offset in one span: inside a closed span's
half-open interval, or at/after an open-ended span's start. -/
def inSpanProp (off : Nat) (sp : QSpan) : Prop :=
  match sp.stop with
  | some e => sp.start ≤ off ∧ off < e
  | none => sp.start ≤ off

/-- Declarative `insideQuote` of the spec (section 4.4): the offset lies in
some span produced by the curly convention or the straight-quote
convention. -/
def insideQuoteSpec (t : Str) (off : Nat) : Prop :=
  ∃ sp ∈ curlySpans t ++ pairUp (dblPositions t), inSpanProp off sp

/-- Length contribution of a context line that the sentence-level splitter
may prepend: the line plus its joining newline when present (Python
truthiness), nothing otherwise. -/
def ctxLineAllow (o : Option Str) : Nat :=
  if optTruthy o then (o.getD []).length + 1 else 0

/-- Per-segment allowance for prepended context lines: clause title plus
quoted title. -/
def segAllow (segment : Str) : Nat :=
  ctxLineAllow (leading_khoan_title segment) + ctxLineAllow (first_quoted_title_line segment)

/-- Worst-case context allowance over all clause blocks of a body. -/
def ctxAllowance (body : Str) : Nat :=
  ((blocksOf body).map (fun se => segAllow (stripNl (sliceN body se.1 se.2)))).foldr max 0

/-- No two consecutive newline characters (no empty line inside the body). -/
def noConsecNl : Str → Bool
  | [] => true
  | [_] => true
  | c :: c' :: rest => !(c = '\n' && c' = '\n') && noConsecNl (c' :: rest)

/-- The buffer obtained by greedily coalescing a list of segments onto an
initial buffer, newline-joined, as the block loop does when every length
check passes. -/
def joinBuf (buf : Str) (segs : List Str) : Str :=
  segs.foldl (fun bf sg => if bf = [] then sg else bf ++ '\n' :: sg) buf

/-- The clause-block segments of a body, in order. -/
def segsOf (body : Str) : List Str :=
  (blocksOf body).map (fun se => stripNl (sliceN body se.1 se.2))

/-- The blocks `(s, e)` tile the interval `[lo, hi)` consecutively, each
non-empty. -/
def chainB : Nat → List (Nat × Nat) → Nat → Prop
  | lo, [], hi => lo = hi
  | lo, (s, e) :: rest, hi => lo = s ∧ s < e ∧ chainB e rest hi

/-- A chunk emitted whole by the fast path of `split_article_content`: the
full `header + body` content, within the `MAX_CONTENT_LEN` limit. -/
def chunkFromWhole (hd body : Str) (c : Chunk) : Prop :=
  c.content = hd ++ (if body ≠ [] then '\n' :: body else []) ∧
  c.content.length ≤ MAX_CONTENT_LEN

/-- A chunk emitted by `flush_buf`: the header line plus the stripped
coalescing buffer, for a buffer that was within the `MAX_CONTENT_LEN`
budget — hence content length at most `MAX_CONTENT_LEN`. -/
def chunkFromFlush (hd : Str) (c : Chunk) : Prop :=
  ∃ b : Str, c.content = hd ++ '\n' :: pyStrip b ∧
    hd.length + 1 + b.length ≤ MAX_CONTENT_LEN ∧
    c.content.length ≤ MAX_CONTENT_LEN

/-- A chunk emitted by the sentence-level splitter for one specific
oversized clause block `(s, e)` of the body: the chunk is the `partChunk`
of one of the parts of that block's split, and its content is bounded by
`MAX_CONTENT_LEN` plus that block's own context-line allowance (its clause
title and quoted title, each with the joining newline). -/
def chunkFromSplit (hd body ch : Str) (c : Chunk) : Prop :=
  ∃ s e parts idx part,
    (s, e) ∈ blocksOf body ∧
    MAX_CONTENT_LEN < hd.length + 1 + (stripNl (sliceN body s e)).length ∧
    split_long_text_at_sentence (stripNl (sliceN body s e))
      ((MAX_CONTENT_LEN : Int) - (hd.length : Int) - 1) (body.length + 1) = some parts ∧
    parts.get? idx = some part ∧
    c = partChunk hd ch (leading_khoan_title (stripNl (sliceN body s e)))
      (first_quoted_title_line (stripNl (sliceN body s e)))
      (compute_quote_spans (stripNl (sliceN body s e))) (partOffsets parts) idx part ∧
    c.content.length ≤ MAX_CONTENT_LEN + segAllow (stripNl (sliceN body s e))

end DocxChunker

namespace Inputs

open DocxChunker

/-- Header `"Điều 1."` (7 characters). -/
def hdrD1 : Str := "Điều 1.".data

/-- Body whose single oversized clause block forces a sentence-level split
whose third part receives the clause title as context. -/
def bodyC1 : Str := "1. t\n".data ++ List.replicate 1492 'a' ++ List.replicate 10 'b'

/-- A 1501-character article header. -/
def hdr1501 : Str := "Điều 1. ".data ++ List.replicate 1493 'x'

/-- A 1499-character article header, for which the per-part limit
`MAX_CONTENT_LEN - len(header) - 1` is zero. -/
def hdr1499 : Str := "Điều 1. ".data ++ List.replicate 1491 'x'

/-- A 1495-character article header, for which the per-part limit is 4. -/
def hdr1495 : Str := "Điều 1. ".data ++ List.replicate 1487 'x'

/-- Two-character body. -/
def bodyAB : Str := "ab".data

/-- A segment split once at its newline: `"ab\ncd"`. -/
def segC7 : Str := "ab\ncd".data

/-- Part `"ab"`. -/
def partAB : Str := "ab".data

/-- Part `"cd"`. -/
def partCD : Str := "cd".data

/-- A configured API key. -/
def keyA : List Char := "a".data

/-- Another key, absent from the configured list. -/
def keyB : List Char := "b".data

/-- A stored article header used by state-machine witnesses. -/
def artW : Str := "Điều 1. A".data

/-- A line with an inline end sentinel. -/
def lineSent : Str := "x./.y".data

/-- A line that would otherwise be appended to a body. -/
def lineExtra : Str := "zz".data

/-- A chapter header line with no inline title. -/
def chapLineW : Str := "Chương I".data

/-- The number parsed from `chapLineW`. -/
def numI : Str := "I".data

/-- An ordinary line adopted as a chapter title. -/
def nextLineW : Str := "Quy định chung".data

/-- A small article body used by witnesses. -/
def bodyW : Str := "xin chao".data

end Inputs

namespace ChatApi

/-- A supplied API key header value; `none` is an absent header
(`Header(None, alias="API-Key")`). -/
abbrev HeaderVal := Option (List Char)

/-- Outcome of `validate_api_key`: pass, or an `HTTPException` with the
given status code. -/
inductive KeyCheck where
  | ok : KeyCheck
  | httpError (status : Nat) : KeyCheck
deriving DecidableEq, Repr

/-- Source `validate_api_key`: accept everything when the configured key
list is empty; reject a falsy (absent or empty) key with 401; reject a key
not in the list with 403. -/
def validate_api_key (apiKeys : List (List Char)) (api_key : HeaderVal) : KeyCheck :=
  if apiKeys = [] then KeyCheck.ok
  else
    match api_key with
    | none => KeyCheck.httpError 401
    | some k =>
      if k = [] then KeyCheck.httpError 401
      else if apiKeys.contains k then KeyCheck.ok
      else KeyCheck.httpError 403

end ChatApi

namespace Metadata

/-- JSON values as `json.load` can produce them (numbers collapsed to `Int`;
float formatting is irrelevant to the claims considered here). -/
inductive PyJson where
  | null : PyJson
  | bool (b : Bool) : PyJson
  | num (n : Int) : PyJson
  | str (s : List Char) : PyJson
  | arr (xs : List PyJson) : PyJson
  | obj (kvs : List (List Char × PyJson)) : PyJson

mutual

/-- Python `str()` of a JSON scalar or container, close enough for the
metadata mapping (the claims only concern the error condition). -/
def pyStrOf : PyJson → List Char
  | PyJson.null => "None".data
  | PyJson.bool true => "True".data
  | PyJson.bool false => "False".data
  | PyJson.num n => (toString n).data
  | PyJson.str s => s
  | PyJson.arr xs => '[' :: List.intercalate (", ".data) (pyStrOfList xs) ++ [']']
  | PyJson.obj kvs =>
    '{' :: List.intercalate (", ".data) (pyStrOfPairs kvs) ++ ['}']

/-- Elementwise `pyStrOf` over a list of values. -/
def pyStrOfList : List PyJson → List (List Char)
  | [] => []
  | x :: r => pyStrOf x :: pyStrOfList r

/-- Elementwise `pyStrOf` over object entries. -/
def pyStrOfPairs : List (List Char × PyJson) → List (List Char)
  | [] => []
  | kv :: r => (kv.1 ++ ": ".data ++ pyStrOf kv.2) :: pyStrOfPairs r

end

/-- Whether a JSON value is a top-level object. -/
def PyJson.isObj : PyJson → Bool
  | PyJson.obj _ => true
  | _ => false

/-- The fatal error message of `load_user_metadata`. -/
def metaErrMsg : List Char := "File JSON metadata phải là một object (key/value).".data

/-- Source `load_user_metadata`, shallowly embedded: the argument is the
parsed content of the optional metadata file (`none` when no `--meta` path
was supplied, in which case the mapping degrades to empty). A non-object
top level raises `ValueError`; an object maps each value through
`"" if v is None else str(v)`. -/
def load_user_metadata (data : Option PyJson) :
    Except (List Char) (List (List Char × List Char)) :=
  match data with
  | none => Except.ok []
  | some d =>
    match d with
    | PyJson.obj kvs =>
      Except.ok (kvs.map (fun kv =>
        (kv.1, match kv.2 with
          | PyJson.null => []
          | v => pyStrOf v)))
    | _ => Except.error metaErrMsg

end Metadata

namespace DocxChunker

open Inputs

/-- Claim C3 (code_bug evidence): the sentence splitter does not terminate
when the per-part limit is zero (header length 1499): on body `"ab"` the
loop never returns for any amount of fuel, because the split position
equals the loop index on every iteration; consequently
`split_article_content` diverges there, contradicting the claim that the
transform returns after finitely many steps on every input. -/
theorem C3_splitter_diverges_at_zero_limit :
    (∀ fuel acc, sltasGo bodyAB 0 fuel 0 acc = none) ∧
    split_article_content hdr1499 bodyAB [] = none ∧
    hdr1499.length = 1499 := by
  refine ⟨?_, ?_, ?_⟩
  · intro fuel
    induction fuel with
    | zero => intro acc; rfl
    | succ n ih =>
      intro acc
      have step : sltasGo bodyAB 0 (n + 1) 0 acc = sltasGo bodyAB 0 n 0 (acc ++ [[]]) := rfl
      rw [step]
      exact ih _
  · decide
  · decide

/-- Claim C8: metadata loading fails exactly when a metadata value is
supplied whose top level is not an object, and an absent optional metadata
file degrades to the empty mapping. -/
theorem C8_metadata_error_condition :
    Metadata.load_user_metadata none = Except.ok [] ∧
    ∀ d : Metadata.PyJson,
      (∃ msg, Metadata.load_user_metadata (some d) = Except.error msg) ↔ d.isObj = false := by
  refine ⟨rfl, ?_⟩
  intro d
  cases d <;> simp [Metadata.load_user_metadata, Metadata.PyJson.isObj]

/-- Claim C10 (counterexample): with a non-empty key list, a supplied
empty-string key — which is not in the list — is rejected with 401, not
403 as the claim states for every key not in the list. -/
theorem C10_counterexample_empty_key :
    ChatApi.validate_api_key [keyA] (some []) = ChatApi.KeyCheck.httpError 401 ∧
    ([] : List Char) ∉ [keyA] ∧
    ChatApi.KeyCheck.httpError 401 ≠ ChatApi.KeyCheck.httpError 403 := by
  refine ⟨rfl, by decide, by decide⟩

/-- Claim C10 (amended): an empty configured key list accepts every request
without examining the key; with a non-empty list an absent key or an
empty-string key is rejected with 401, a non-empty key not in the list is
rejected with 403, and a listed key passes. -/
theorem C10_amended_key_validation :
    (∀ hk, ChatApi.validate_api_key [] hk = ChatApi.KeyCheck.ok) ∧
    (∀ keys, keys ≠ [] → ChatApi.validate_api_key keys none = ChatApi.KeyCheck.httpError 401) ∧
    (∀ keys, keys ≠ [] →
      ChatApi.validate_api_key keys (some []) = ChatApi.KeyCheck.httpError 401) ∧
    (∀ keys k, keys ≠ [] → k ≠ [] → k ∉ keys →
      ChatApi.validate_api_key keys (some k) = ChatApi.KeyCheck.httpError 403) ∧
    (∀ keys k, keys ≠ [] → k ≠ [] → k ∈ keys →
      ChatApi.validate_api_key keys (some k) = ChatApi.KeyCheck.ok) := by
  refine ⟨?_, ?_, ?_, ?_, ?_⟩
  · intro hk
    simp [ChatApi.validate_api_key]
  · intro keys hk
    simp [ChatApi.validate_api_key, hk]
  · intro keys hk
    simp [ChatApi.validate_api_key, hk]
  · intro keys k hk hne hmem
    simp [ChatApi.validate_api_key, hk, hne, hmem]
  · intro keys k hk hne hmem
    simp [ChatApi.validate_api_key, hk, hne, hmem]

/-- Witness for the amended C10 statement at concrete inputs. -/
theorem C10_amended_key_validation_witness :
    ChatApi.validate_api_key [keyA] (some keyB) = ChatApi.KeyCheck.httpError 403 :=
  C10_amended_key_validation.2.2.2.1 [keyA] keyB (by decide) (by decide) (by decide)

end DocxChunker

namespace DocxChunker

open Inputs

/-- Claim C1 (counterexample): an article whose header line has length 7
(well below the threshold) still yields a sentence-split chunk of length
1505 > 1500, because the clause-title context line is prepended after the
per-part limit has already been used up. -/
theorem C1_counterexample_context_overflow :
    hdrD1.length ≤ MAX_CONTENT_LEN ∧
    ((split_article_content hdrD1 bodyC1 []).getD []).any
      (fun c => c.article = hdrD1 && decide (MAX_CONTENT_LEN < c.content.length)) = true := by
  exact ⟨by decide, by decide⟩

/-- Claim C2 (counterexample): a flushed ArticleRecord with a 1501-character
header line and empty body is converted into zero ChunkRecords, not "one or
more" (the clause partition of the empty body yields one empty segment, the
sentence splitter returns no parts, and the buffer stays empty). -/
theorem C2_counterexample_zero_chunks :
    split_article_content hdr1501 [] [] = some [] ∧ hdr1501.length = 1501 := by
  exact ⟨by decide, by decide⟩

/-- Claim C7 (counterexample): for the block `"ab\ncd"` split under a
1495-character header (per-part limit 4), the second part `"cd"` actually
begins at index 3 of the block, but the tracked offset — the cumulative
length of the right-stripped earlier parts — is 2, so the tracked offset is
not the actual start index. -/
theorem C7_counterexample_offset_drift :
    ((MAX_CONTENT_LEN : Int) - (hdr1495.length : Int) - 1 = 4) ∧
    sltasTrace segC7 4 6 = some [(0, partAB), (3, partCD)] ∧
    split_long_text_at_sentence segC7 4 6 = some [partAB, partCD] ∧
    partOffsets [partAB, partCD] = [0, 2] ∧
    ((split_article_content hdr1495 segC7 []).getD []).map
      (fun c => (c.content.length, c.content.drop hdr1495.length, c.chapter, c.article.length)) =
      [(1498, '\n' :: partAB, [], 1495), (1498, '\n' :: partCD, [], 1495)] ∧
    (2 : Int) ≠ 3 := by
  refine ⟨by decide, by decide, by decide, by decide, by decide, by decide⟩

/-- Claim C4: while an article is open, a line recognized as carrying the
end sentinel halts processing — the result does not depend on any later
line — and an inline (non-whole-line) occurrence retains exactly the text
before its first occurrence, when non-blank, as the final body line before
the flush. -/
theorem C4_sentinel_truncation :
    ∀ (s : CState) (line : Str) (rest rest' : List Str),
      parse_chapter_inline line = none →
      is_article_header line = none →
      articleOpen s = true →
      (endLineMatches line = true ∨ (endAnySearch line 0).isSome = true) →
      processLines (line :: rest) s = processLines (line :: rest') s ∧
      (endLineMatches line = false →
        ∀ ms, endAnySearch line 0 = some ms →
          processLines (line :: rest) s =
            (flushArticle (if pyStrip (takeN line ms) ≠ []
              then { s with body := s.body ++ [pyRstrip (takeN line ms)] } else s)).map
              CState.chunks) := by
  intro s line rest rest' hchap hart hopen hsent
  constructor
  · rcases he : endLineMatches line with _ | _
    · rcases hsent with h | h
      · rw [he] at h
        exact absurd h (by simp)
      · obtain ⟨ms, hms⟩ := Option.isSome_iff_exists.mp h
        simp only [processLines, hchap, hart, hopen, he, hms, if_true, Bool.false_eq_true,
          if_false]
    · simp only [processLines, hchap, hart, hopen, he, if_true]
  · intro he ms hms
    simp only [processLines, hchap, hart, hopen, he, hms, if_true, Bool.false_eq_true, if_false]

/-- Witness for C4 at concrete inputs: an inline sentinel line halts and the
trailing `"y"` plus a whole later line contribute nothing. -/
theorem C4_sentinel_truncation_witness :
    processLines [lineSent] ⟨none, some artW, [], []⟩ =
      processLines [lineSent, lineExtra] ⟨none, some artW, [], []⟩ :=
  (C4_sentinel_truncation ⟨none, some artW, [], []⟩ lineSent [] [lineExtra]
    (by decide) (by decide) (by decide) (Or.inr (by decide))).1

end DocxChunker

namespace DocxChunker

open Inputs

/-- Claim C5: on a recognized Chapter-header line the machine continues with
the remaining lines unconsumed and a chapter display name equal to the
spec's three-case rule, computed from exactly one line of lookahead
(`rest.head?`); stated for streams whose lines are non-empty, as produced
by the line normalizer. -/
theorem C5_chapter_display_name :
    ∀ (s s' : CState) (line num inline_title : Str) (rest : List Str),
      flushArticle s = some s' →
      parse_chapter_inline line = some (line, num, inline_title) →
      (∀ nl, rest.head? = some nl → nl ≠ []) →
      processLines (line :: rest) s =
        processLines rest
          ⟨some (chapterDisplayNameSpec num inline_title rest.head?), none, [], s'.chunks⟩ := by
  intro s s' line num inline_title rest hflush hparse hnext
  have hname : build_chapter_name line num inline_title rest.head? =
      chapterDisplayNameSpec num inline_title rest.head? := by
    unfold build_chapter_name chapterDisplayNameSpec
    by_cases hi : inline_title = []
    · cases hh : rest.head? with
      | none => simp [hi]
      | some nl =>
        have hnl : nl ≠ [] := hnext nl hh
        by_cases hcm : (chapterMatch nl).isNone ∧ (articleMatch nl).isNone
        · simp [hi, hcm, hnl]
        · simp [hi, hcm, hnl]
    · simp [hi]
  simp only [processLines, hparse, hflush, hname]

/-- Witness for C5 at concrete inputs: `"Chương I"` adopts the next line as
its title. -/
theorem C5_chapter_display_name_witness :
    processLines [chapLineW, nextLineW] ⟨none, none, [], []⟩ =
      processLines [nextLineW]
        ⟨some (chapterDisplayNameSpec numI [] (some nextLineW)), none, [], []⟩ :=
  C5_chapter_display_name ⟨none, none, [], []⟩ ⟨none, none, [], []⟩ chapLineW numI [] [nextLineW]
    rfl (by decide)
    (by
      intro nl h
      simp only [List.head?, Option.some.injEq] at h
      subst h
      decide)

/-- Claim C9: the one-line lookahead is not consumed — after a chapter
header without inline title adopts the following line `nl` as its title,
`nl` is processed as an ordinary line on the next step and, no article
being open, is discarded: the machine proceeds to the remaining lines with
unchanged chunks, empty body and no open article, `nl` surviving only in
the chapter display name. -/
theorem C9_lookahead_line_discarded :
    ∀ (s s' : CState) (chapLine num nl : Str) (rest : List Str),
      flushArticle s = some s' →
      parse_chapter_inline chapLine = some (chapLine, num, []) →
      nl ≠ [] → chapterMatch nl = none → articleMatch nl = none →
      processLines (chapLine :: nl :: rest) s =
        processLines rest ⟨some (litChuongSp ++ num ++ litDotSp ++ nl), none, [], s'.chunks⟩ := by
  intro s s' chapLine num nl rest hflush hparse hnl hcm ham
  have hname : build_chapter_name chapLine num [] (some nl) =
      litChuongSp ++ num ++ litDotSp ++ nl := by
    simp [build_chapter_name, hnl, hcm, ham]
  have hpc : parse_chapter_inline nl = none := by
    simp [parse_chapter_inline, hcm]
  have hart : is_article_header nl = none := by
    simp [is_article_header, ham]
  simp only [processLines, hparse, hflush, List.head?, hname, hpc, hart, articleOpen,
    Bool.false_eq_true, if_false]

/-- Witness for C9 at concrete inputs: the adopted title line is discarded
and processing continues after it. -/
theorem C9_lookahead_line_discarded_witness :
    processLines [chapLineW, nextLineW] ⟨none, none, [], []⟩ =
      processLines [] ⟨some (litChuongSp ++ numI ++ litDotSp ++ nextLineW), none, [], []⟩ :=
  C9_lookahead_line_discarded ⟨none, none, [], []⟩ ⟨none, none, [], []⟩ chapLineW numI
    nextLineW [] rfl (by decide) (by decide) (by decide) (by decide)

end DocxChunker

namespace DocxChunker

theorem insSpan_perm (a : QSpan) (l : List QSpan) : (insSpan a l).Perm (a :: l) := by
  induction l with
  | nil => simp [insSpan]
  | cons b l ih =>
    by_cases h : b.start < a.start
    · simp only [insSpan, h, if_true]
      exact ((ih.cons b).trans (List.Perm.swap a b l)).symm.symm
    · simp [insSpan, h]

theorem sortSpans_perm (l : List QSpan) : (sortSpans l).Perm l := by
  induction l with
  | nil => simp [sortSpans]
  | cons a l ih =>
    exact (insSpan_perm a (sortSpans l)).trans (ih.cons a)

theorem insSpan_pairwise (a : QSpan) (l : List QSpan)
    (h : List.Pairwise (fun x y => x.start ≤ y.start) l) :
    List.Pairwise (fun x y => x.start ≤ y.start) (insSpan a l) := by
  induction l with
  | nil => simp [insSpan]
  | cons b l ih =>
    rcases h with - | ⟨hb, hl⟩
    by_cases hba : b.start < a.start
    · simp only [insSpan, hba, if_true]
      refine List.Pairwise.cons ?_ (ih hl)
      intro x hx
      rcases List.mem_cons.mp ((insSpan_perm a l).mem_iff.mp hx) with rfl | hx
      · exact le_of_lt hba
      · exact hb x hx
    · simp only [insSpan, hba, if_false]
      refine List.Pairwise.cons ?_ (List.Pairwise.cons hb hl)
      intro x hx
      rcases List.mem_cons.mp hx with rfl | hx
      · exact le_of_not_lt hba
      · exact le_trans (le_of_not_lt hba) (hb x hx)

theorem sortSpans_pairwise (l : List QSpan) :
    List.Pairwise (fun x y => x.start ≤ y.start) (sortSpans l) := by
  induction l with
  | nil => simp [sortSpans]
  | cons a l ih => exact insSpan_pairwise a (sortSpans l) ih

theorem inSpan_bool_iff (off : Nat) (sp : QSpan) :
    ((match sp.stop with
      | none => decide (sp.start ≤ off)
      | some e => decide (sp.start ≤ off) && decide (off < e)) = true) ↔ inSpanProp off sp := by
  cases h : sp.stop <;> simp [inSpanProp, h]

/-- Claim C6: the quote tracker's membership test agrees with the spec's
declarative `insideQuote` over the spans of the two conventions (stack-based
curly spans, consecutively paired straight-quote spans), and
`compute_quote_spans` is exactly those spans merged — a permutation of the
two lists, sorted by start offset, with no coalescing. -/
theorem C6_quote_spans_membership :
    ∀ (t : Str) (off : Nat),
      (is_offset_in_any_span off (compute_quote_spans t) = true ↔ insideQuoteSpec t off) ∧
      (compute_quote_spans t).Perm (curlySpans t ++ pairUp (dblPositions t)) ∧
      List.Pairwise (fun x y => x.start ≤ y.start) (compute_quote_spans t) := by
  intro t off
  refine ⟨?_, sortSpans_perm _, sortSpans_pairwise _⟩
  rw [is_offset_in_any_span, List.any_eq_true]
  constructor
  · rintro ⟨sp, hmem, hsp⟩
    exact ⟨sp, (sortSpans_perm _).mem_iff.mp hmem, (inSpan_bool_iff off sp).mp hsp⟩
  · rintro ⟨sp, hmem, hsp⟩
    exact ⟨sp, (sortSpans_perm _).mem_iff.mpr hmem, (inSpan_bool_iff off sp).mpr hsp⟩

end DocxChunker

namespace DocxChunker

theorem dropWhile_length_le (p : Char → Bool) (l : Str) :
    (l.dropWhile p).length ≤ l.length := by
  induction l with
  | nil => simp
  | cons x xs ih =>
    by_cases hx : p x
    · rw [List.dropWhile_cons_of_pos hx]
      exact le_trans ih (by simp)
    · rw [List.dropWhile_cons_of_neg hx]

theorem length_rstripBy_le (p : Char → Bool) (l : Str) : (rstripBy p l).length ≤ l.length := by
  unfold rstripBy
  calc ((l.reverse.dropWhile p).reverse).length
      = (l.reverse.dropWhile p).length := by simp
    _ ≤ l.reverse.length := dropWhile_length_le p l.reverse
    _ = l.length := by simp

theorem length_pyRstrip_le (l : Str) : (pyRstrip l).length ≤ l.length :=
  length_rstripBy_le pyIsSpace l

theorem length_pyStrip_le (l : Str) : (pyStrip l).length ≤ l.length := by
  unfold pyStrip lstripBy
  exact le_trans (dropWhile_length_le pyIsSpace _) (length_rstripBy_le _ _)

theorem rfindGo_some_lt (c : Char) :
    ∀ (l : Str) (i : Nat) (acc : Option Nat) (j : Nat),
      (∀ a, acc = some a → a < i) → rfindGo c l i acc = some j → j < i + l.length := by
  intro l
  induction l with
  | nil =>
    intro i acc j hacc h
    simpa using hacc j h
  | cons x xs ih =>
    intro i acc j hacc h
    rw [rfindGo] at h
    have hacc' : ∀ a, (if x = c then some i else acc) = some a → a < i + 1 := by
      intro a ha
      by_cases hx : x = c
      · rw [if_pos hx] at ha
        injection ha with ha
        omega
      · rw [if_neg hx] at ha
        exact lt_trans (hacc a ha) (by omega)
    have := ih (i + 1) _ j hacc' h
    simpa [Nat.add_comm, Nat.add_left_comm] using this

theorem pyRfind_lt_stop {c : Char} {t : Str} {a b : Int} {p : Nat}
    (h : pyRfind c t a b = some p) : p < pyIdx t.length b := by
  unfold pyRfind at h
  dsimp only at h
  rcases hg : rfindGo c ((t.drop (pyIdx t.length a)).take (pyIdx t.length b - pyIdx t.length a))
      0 none with _ | j
  · rw [hg] at h
    exact absurd h (by simp)
  · rw [hg] at h
    simp only [Option.map_some'] at h
    injection h with h
    have hj := rfindGo_some_lt c _ 0 none j (by intro a ha; cases ha) hg
    have hlen : ((t.drop (pyIdx t.length a)).take
        (pyIdx t.length b - pyIdx t.length a)).length ≤
        pyIdx t.length b - pyIdx t.length a := by
      simp [List.length_take]
    omega

theorem pyIdx_le_toNat (n : Nat) (b : Int) (hb : 0 ≤ b) : pyIdx n b ≤ b.toNat := by
  unfold pyIdx
  rw [if_neg (by omega)]
  exact min_le_left _ _

theorem sltasSplit_le {t : Str} {i e : Int} (he : 0 ≤ e) : sltasSplit t i e ≤ e := by
  unfold sltasSplit
  have h2 := pyIdx_le_toNat t.length e he
  rcases hp : pyRfind '.' t i e with _ | p <;>
    rcases hnl : pyRfind '\n' t i e with _ | nl <;>
    dsimp only
  · exact le_refl e
  · have := pyRfind_lt_stop hnl
    split_ifs <;> omega
  · split_ifs
    · have := pyRfind_lt_stop hp
      omega
    · exact le_refl e
  · have hpl := pyRfind_lt_stop hp
    have hnll := pyRfind_lt_stop hnl
    split_ifs <;> omega

theorem sltasSplit_nonneg {t : Str} {i e : Int} (he : 0 ≤ e) : 0 ≤ sltasSplit t i e := by
  unfold sltasSplit
  rcases hp : pyRfind '.' t i e with _ | p <;>
    rcases hnl : pyRfind '\n' t i e with _ | nl <;>
    dsimp only <;>
    first
    | omega
    | (split_ifs <;> omega)

theorem sltasSplit_gt {t : Str} {i e : Int} (hlt : i < e) : i < sltasSplit t i e := by
  unfold sltasSplit
  rcases hp : pyRfind '.' t i e with _ | p <;>
    rcases hnl : pyRfind '\n' t i e with _ | nl <;>
    dsimp only <;>
    first
    | omega
    | (split_ifs <;> omega)

end DocxChunker

namespace DocxChunker

theorem pyIdx_of_le {n : Nat} {i : Int} (hi : 0 ≤ i) (hle : i.toNat ≤ n) :
    pyIdx n i = i.toNat := by
  unfold pyIdx
  rw [if_neg (by omega)]
  exact min_eq_left hle

theorem length_pySlice_le (t : Str) (a b : Int) :
    (pySlice t a b).length ≤ pyIdx t.length b - pyIdx t.length a := by
  unfold pySlice
  dsimp only
  simp only [List.length_take, List.length_drop]
  exact min_le_left _ _

theorem sltasGo_parts_le (t : Str) (L : Int) (hL : 1 ≤ L) :
    ∀ (fuel : Nat) (i : Int) (acc res : List Str), 0 ≤ i →
      (∀ p ∈ acc, p.length ≤ L.toNat) →
      sltasGo t L fuel i acc = some res →
      ∀ p ∈ res, p.length ≤ L.toNat := by
  intro fuel
  induction fuel with
  | zero =>
    intro i acc res _ _ h
    exact absurd h (by simp [sltasGo])
  | succ n ih =>
    intro i acc res hi hacc h
    simp only [sltasGo] at h
    by_cases hin : i < (t.length : Int)
    · rw [if_pos hin] at h
      by_cases hee : min (i + L) (t.length : Int) = (t.length : Int)
      · rw [if_pos hee] at h
        injection h with h
        subst h
        intro p hp
        rcases List.mem_append.mp hp with hp | hp
        · exact hacc p hp
        · have hps := List.mem_singleton.mp hp
          subst hps
          refine le_trans (length_pyRstrip_le _) ?_
          have h1 : (pySliceFrom t i).length = t.length - pyIdx t.length i := by
            unfold pySliceFrom
            simp
          have h2 : pyIdx t.length i = i.toNat := pyIdx_of_le hi (by omega)
          have h3 : (t.length : Int) ≤ i + L := min_eq_right_iff.mp hee
          omega
      · rw [if_neg hee] at h
        have hn0 : (0 : Int) ≤ (t.length : Int) := by positivity
        have henn : (0 : Int) ≤ min (i + L) (t.length : Int) := le_min (by omega) hn0
        refine ih (sltasSplit t i (min (i + L) (t.length : Int))) _ res
          (sltasSplit_nonneg henn) ?_ h
        intro p hp
        rcases List.mem_append.mp hp with hp | hp
        · exact hacc p hp
        · have hps := List.mem_singleton.mp hp
          subst hps
          refine le_trans (length_pyRstrip_le _) ?_
          refine le_trans (length_pySlice_le t i _) ?_
          have hsle : sltasSplit t i (min (i + L) (t.length : Int)) ≤
              min (i + L) (t.length : Int) := sltasSplit_le henn
          have h4 : pyIdx t.length (sltasSplit t i (min (i + L) (t.length : Int))) ≤
              (sltasSplit t i (min (i + L) (t.length : Int))).toNat :=
            pyIdx_le_toNat _ _ (sltasSplit_nonneg henn)
          have h5 : pyIdx t.length i = i.toNat := pyIdx_of_le hi (by omega)
          have h6 : min (i + L) (t.length : Int) ≤ i + L := min_le_left _ _
          omega
    · rw [if_neg hin] at h
      injection h with h
      subst h
      exact hacc

end DocxChunker

namespace DocxChunker

theorem interc_one (a : Str) : List.intercalate ['\n'] [a] = a := by
  simp [List.intercalate]

theorem interc_two (a b : Str) : List.intercalate ['\n'] [a, b] = a ++ '\n' :: b := by
  simp [List.intercalate, List.intersperse]

theorem interc_three (a b c : Str) :
    List.intercalate ['\n'] [a, b, c] = a ++ '\n' :: (b ++ '\n' :: c) := by
  simp [List.intercalate, List.intersperse]

theorem partChunk_content_le (hd ch : Str) (kt qt : Option Str) (spans : List QSpan)
    (offsets : List Nat) (idx : Nat) (part : Str) (P : Nat) (hP : part.length ≤ P) :
    (partChunk hd ch kt qt spans offsets idx part).content.length ≤
      hd.length + 1 + ctxLineAllow kt + ctxLineAllow qt + P := by
  have hstrip : (pyStrip part).length ≤ P := le_trans (length_pyStrip_le part) hP
  unfold partChunk
  dsimp only
  by_cases hk : 0 < idx ∧ optTruthy kt = true
  · rw [if_pos hk]
    by_cases hq : is_offset_in_any_span (offsets.getD idx 0) spans = true ∧
        optTruthy qt = true ∧ pyStrip (qt.getD []) ≠ pyStrip (part.takeWhile (· ≠ '\n'))
    · rw [if_pos hq]
      simp only [List.cons_append, List.nil_append]
      have e3 := interc_three hd (kt.getD []) (qt.getD [])
      rw [e3]
      have hak : ctxLineAllow kt = (kt.getD []).length + 1 := by
        unfold ctxLineAllow
        rw [if_pos hk.2]
      have haq : ctxLineAllow qt = (qt.getD []).length + 1 := by
        unfold ctxLineAllow
        rw [if_pos hq.2.1]
      simp only [List.length_append, List.length_cons]
      omega
    · rw [if_neg hq]
      simp only [List.cons_append, List.nil_append]
      have e2 := interc_two hd (kt.getD [])
      rw [e2]
      have hak : ctxLineAllow kt = (kt.getD []).length + 1 := by
        unfold ctxLineAllow
        rw [if_pos hk.2]
      simp only [List.length_append, List.length_cons]
      omega
  · rw [if_neg hk]
    by_cases hq : is_offset_in_any_span (offsets.getD idx 0) spans = true ∧
        optTruthy qt = true ∧ pyStrip (qt.getD []) ≠ pyStrip (part.takeWhile (· ≠ '\n'))
    · rw [if_pos hq]
      simp only [List.cons_append, List.nil_append]
      have e2 := interc_two hd (qt.getD [])
      rw [e2]
      have haq : ctxLineAllow qt = (qt.getD []).length + 1 := by
        unfold ctxLineAllow
        rw [if_pos hq.2.1]
      simp only [List.length_append, List.length_cons]
      omega
    · rw [if_neg hq]
      have e1 := interc_one hd
      rw [e1]
      simp only [List.length_append, List.length_cons]
      omega

theorem mem_enumFrom_snd {α : Type} :
    ∀ (l : List α) (k : Nat) (ip : Nat × α), ip ∈ l.enumFrom k → ip.2 ∈ l := by
  intro l
  induction l with
  | nil => intro k ip h; simp at h
  | cons x xs ih =>
    intro k ip h
    rcases List.mem_cons.mp h with rfl | h
    · exact List.mem_cons_self _ _
    · exact List.mem_cons_of_mem _ (ih (k + 1) ip h)

theorem mem_enum_snd {α : Type} (l : List α) (ip : Nat × α) (h : ip ∈ l.enum) : ip.2 ∈ l :=
  mem_enumFrom_snd l 0 ip h

theorem sacSentenceChunks_le (hd ch seg : Str) (fuel : Nat) (cs : List Chunk)
    (hh : hd.length + 2 ≤ MAX_CONTENT_LEN)
    (h : sacSentenceChunks hd ch seg fuel = some cs) :
    ∀ c ∈ cs, c.content.length ≤ MAX_CONTENT_LEN + segAllow seg := by
  unfold sacSentenceChunks at h
  dsimp only at h
  rcases hs : split_long_text_at_sentence seg
      ((MAX_CONTENT_LEN : Int) - (hd.length : Int) - 1) fuel with _ | parts
  · rw [hs] at h
    exact absurd h (by simp)
  · rw [hs] at h
    injection h with h
    subst h
    intro c hc
    rcases List.mem_map.mp hc with ⟨ip, hip, rfl⟩
    have hL : (1 : Int) ≤ (MAX_CONTENT_LEN : Int) - (hd.length : Int) - 1 := by
      unfold MAX_CONTENT_LEN at hh ⊢
      omega
    have hpart : ip.2.length ≤ ((MAX_CONTENT_LEN : Int) - (hd.length : Int) - 1).toNat :=
      sltasGo_parts_le seg _ hL fuel 0 [] parts (by omega) (by simp) hs ip.2
        (mem_enum_snd parts ip hip)
    have hbound := partChunk_content_le hd ch (leading_khoan_title seg)
      (first_quoted_title_line seg) (compute_quote_spans seg) (partOffsets parts)
      ip.1 ip.2 _ hpart
    unfold segAllow
    have htn : ((MAX_CONTENT_LEN : Int) - (hd.length : Int) - 1).toNat =
        MAX_CONTENT_LEN - hd.length - 1 := by
      unfold MAX_CONTENT_LEN at hh ⊢
      omega
    rw [htn] at hbound
    unfold MAX_CONTENT_LEN at hh hbound ⊢
    omega

theorem flush_buf_mem (hd ch : Str) (st : SacSt) :
    ∀ c ∈ (flush_buf hd ch st).out,
      c ∈ st.out ∨ c.content.length = hd.length + 1 + (pyStrip st.buf).length := by
  unfold flush_buf
  by_cases hb : pyStrip st.buf = []
  · rw [if_pos hb]
    intro c hc
    exact Or.inl hc
  · rw [if_neg hb]
    intro c hc
    rcases List.mem_append.mp hc with hc | hc
    · exact Or.inl hc
    · have := List.mem_singleton.mp hc
      subst this
      right
      simp only [List.length_append, List.length_cons]
      omega

theorem flush_buf_buf (hd ch : Str) (st : SacSt) :
    (flush_buf hd ch st).buf = [] ∨ (flush_buf hd ch st).buf = st.buf := by
  unfold flush_buf
  by_cases hb : pyStrip st.buf = []
  · rw [if_pos hb]
    exact Or.inr rfl
  · rw [if_neg hb]
    exact Or.inl rfl

theorem flush_out_le (hd ch : Str) (A : Nat) (st : SacSt)
    (hh : hd.length + 2 ≤ MAX_CONTENT_LEN)
    (hout : ∀ c ∈ st.out, c.content.length ≤ MAX_CONTENT_LEN + A)
    (hbuf : st.buf = [] ∨ hd.length + 1 + st.buf.length ≤ MAX_CONTENT_LEN) :
    ∀ c ∈ (flush_buf hd ch st).out, c.content.length ≤ MAX_CONTENT_LEN + A := by
  intro c hc
  rcases flush_buf_mem hd ch st c hc with hc | hc
  · exact hout c hc
  · have hsl : (pyStrip st.buf).length ≤ st.buf.length := length_pyStrip_le _
    rcases hbuf with hb | hb
    · rw [hb] at hc
      have hz : (pyStrip ([] : Str)).length = 0 := rfl
      omega
    · omega

end DocxChunker

namespace DocxChunker

theorem le_foldr_max {α : Type} (f : α → Nat) :
    ∀ (l : List α) (x : α), x ∈ l → f x ≤ (l.map f).foldr max 0 := by
  intro l
  induction l with
  | nil => intro x hx; simp at hx
  | cons y ys ih =>
    intro x hx
    rcases List.mem_cons.mp hx with rfl | hx
    · simp only [List.map_cons, List.foldr_cons]
      exact le_max_left _ _
    · simp only [List.map_cons, List.foldr_cons]
      exact le_trans (ih x hx) (le_max_right _ _)

theorem sacBlocks_bound (hd ch body : Str) (fuel : Nat) (A : Nat)
    (hh : hd.length + 2 ≤ MAX_CONTENT_LEN) :
    ∀ (blocks : List (Nat × Nat)) (st st' : SacSt),
      (∀ se ∈ blocks, segAllow (stripNl (sliceN body se.1 se.2)) ≤ A) →
      (∀ c ∈ st.out, c.content.length ≤ MAX_CONTENT_LEN + A) →
      (st.buf = [] ∨ hd.length + 1 + st.buf.length ≤ MAX_CONTENT_LEN) →
      sacBlocks hd ch body fuel blocks st = some st' →
      (∀ c ∈ st'.out, c.content.length ≤ MAX_CONTENT_LEN + A) ∧
      (st'.buf = [] ∨ hd.length + 1 + st'.buf.length ≤ MAX_CONTENT_LEN) := by
  intro blocks
  induction blocks with
  | nil =>
    intro st st' _ hout hbuf h
    simp only [sacBlocks] at h
    injection h with h
    subst h
    exact ⟨hout, hbuf⟩
  | cons se rest ih =>
    intro st st' hallow hout hbuf h
    obtain ⟨s, e⟩ := se
    have hallowrest : ∀ x ∈ rest, segAllow (stripNl (sliceN body x.1 x.2)) ≤ A := by
      intro x hx
      exact hallow x (List.mem_cons_of_mem _ hx)
    have hallowhead : segAllow (stripNl (sliceN body s e)) ≤ A :=
      hallow (s, e) (List.mem_cons_self _ _)
    simp only [sacBlocks] at h
    by_cases h1 : hd.length + 1 + (stripNl (sliceN body s e)).length ≤ MAX_CONTENT_LEN
    · rw [if_pos h1] at h
      by_cases h2 : hd.length + 1 +
          (if st.buf = [] then stripNl (sliceN body s e)
           else st.buf ++ '\n' :: stripNl (sliceN body s e)).length ≤ MAX_CONTENT_LEN
      · rw [if_pos h2] at h
        refine ih _ st' hallowrest ?_ ?_ h
        · exact hout
        · exact Or.inr h2
      · rw [if_neg h2] at h
        refine ih _ st' hallowrest ?_ (Or.inr h1) h
        exact flush_out_le hd ch A st hh hout hbuf
    · rw [if_neg h1] at h
      rcases hcs : sacSentenceChunks hd ch (stripNl (sliceN body s e)) fuel with _ | cs
      · rw [hcs] at h
        exact absurd h (by simp)
      · rw [hcs] at h
        refine ih _ st' hallowrest ?_ ?_ h
        · intro c hc
          rcases List.mem_append.mp hc with hc | hc
          · exact flush_out_le hd ch A st hh hout hbuf c hc
          · have := sacSentenceChunks_le hd ch _ fuel cs hh hcs c hc
            omega
        · rcases flush_buf_buf hd ch st with hb | hb
          · rw [hb]
            exact Or.inl rfl
          · rw [hb]
            exact hbuf

theorem flush_buf_mem_eq (hd ch : Str) (st : SacSt) :
    ∀ c ∈ (flush_buf hd ch st).out,
      c ∈ st.out ∨
      (pyStrip st.buf ≠ [] ∧ c = ⟨hd ++ '\n' :: pyStrip st.buf, ch, hd⟩) := by
  unfold flush_buf
  by_cases hb : pyStrip st.buf = []
  · rw [if_pos hb]
    intro c hc
    exact Or.inl hc
  · rw [if_neg hb]
    intro c hc
    rcases List.mem_append.mp hc with hc | hc
    · exact Or.inl hc
    · have hcc := List.mem_singleton.mp hc
      exact Or.inr ⟨hb, hcc⟩

theorem mem_enumFrom_get? {α : Type} :
    ∀ (l : List α) (k : Nat) (ip : Nat × α), ip ∈ l.enumFrom k →
      l.get? (ip.1 - k) = some ip.2 ∧ k ≤ ip.1 := by
  intro l
  induction l with
  | nil =>
    intro k ip h
    simp [List.enumFrom] at h
  | cons a rest ih =>
    intro k ip h
    simp only [List.enumFrom] at h
    rcases List.mem_cons.mp h with rfl | h2
    · constructor
      · simp
      · exact le_refl _
    · obtain ⟨hg, hk⟩ := ih (k + 1) ip h2
      constructor
      · have hstep : ip.1 - k = (ip.1 - (k + 1)) + 1 := by omega
        rw [hstep]
        exact hg
      · omega

theorem mem_enum_get? {α : Type} (l : List α) (ip : Nat × α) (h : ip ∈ l.enum) :
    l.get? ip.1 = some ip.2 := by
  have hres := mem_enumFrom_get? l 0 ip h
  simpa using hres.1

theorem sacSentenceChunks_mem (hd ch seg : Str) (fuel : Nat) (cs : List Chunk)
    (h : sacSentenceChunks hd ch seg fuel = some cs) :
    ∃ parts, split_long_text_at_sentence seg
        ((MAX_CONTENT_LEN : Int) - (hd.length : Int) - 1) fuel = some parts ∧
      ∀ c ∈ cs, ∃ idx part, parts.get? idx = some part ∧
        c = partChunk hd ch (leading_khoan_title seg) (first_quoted_title_line seg)
          (compute_quote_spans seg) (partOffsets parts) idx part := by
  unfold sacSentenceChunks at h
  dsimp only at h
  rcases hs : split_long_text_at_sentence seg
      ((MAX_CONTENT_LEN : Int) - (hd.length : Int) - 1) fuel with _ | parts
  · rw [hs] at h
    exact absurd h (by simp)
  · rw [hs] at h
    injection h with h
    subst h
    refine ⟨parts, rfl, ?_⟩
    intro c hc
    rcases List.mem_map.mp hc with ⟨ip, hip, rfl⟩
    exact ⟨ip.1, ip.2, mem_enum_get? parts ip hip, rfl⟩

theorem flush_out_classify (hd ch body : Str) (st : SacSt)
    (hout : ∀ c ∈ st.out, chunkFromFlush hd c ∨ chunkFromSplit hd body ch c)
    (hbuf : st.buf = [] ∨ hd.length + 1 + st.buf.length ≤ MAX_CONTENT_LEN) :
    ∀ c ∈ (flush_buf hd ch st).out,
      chunkFromFlush hd c ∨ chunkFromSplit hd body ch c := by
  intro c hc
  rcases flush_buf_mem_eq hd ch st c hc with hc2 | ⟨hne, rfl⟩
  · exact hout c hc2
  · left
    have hble : hd.length + 1 + st.buf.length ≤ MAX_CONTENT_LEN := by
      rcases hbuf with hb | hb
      · exact absurd (by rw [hb]; rfl) hne
      · exact hb
    refine ⟨st.buf, rfl, hble, ?_⟩
    dsimp only
    have hsl := length_pyStrip_le st.buf
    simp only [List.length_append, List.length_cons]
    omega

theorem sacBlocks_classify (hd ch body : Str)
    (hh : hd.length + 2 ≤ MAX_CONTENT_LEN) :
    ∀ (blocks : List (Nat × Nat)) (st st' : SacSt),
      (∀ se ∈ blocks, se ∈ blocksOf body) →
      (∀ c ∈ st.out, chunkFromFlush hd c ∨ chunkFromSplit hd body ch c) →
      (st.buf = [] ∨ hd.length + 1 + st.buf.length ≤ MAX_CONTENT_LEN) →
      sacBlocks hd ch body (body.length + 1) blocks st = some st' →
      (∀ c ∈ st'.out, chunkFromFlush hd c ∨ chunkFromSplit hd body ch c) ∧
      (st'.buf = [] ∨ hd.length + 1 + st'.buf.length ≤ MAX_CONTENT_LEN) := by
  intro blocks
  induction blocks with
  | nil =>
    intro st st' _ hout hbuf h
    simp only [sacBlocks] at h
    injection h with h
    subst h
    exact ⟨hout, hbuf⟩
  | cons se rest ih =>
    intro st st' hsub hout hbuf h
    obtain ⟨s, e⟩ := se
    have hsubrest : ∀ x ∈ rest, x ∈ blocksOf body :=
      fun x hx => hsub x (List.mem_cons_of_mem _ hx)
    have hin : (s, e) ∈ blocksOf body := hsub (s, e) (List.mem_cons_self _ _)
    simp only [sacBlocks] at h
    by_cases h1 : hd.length + 1 + (stripNl (sliceN body s e)).length ≤ MAX_CONTENT_LEN
    · rw [if_pos h1] at h
      by_cases h2 : hd.length + 1 +
          (if st.buf = [] then stripNl (sliceN body s e)
           else st.buf ++ '\n' :: stripNl (sliceN body s e)).length ≤ MAX_CONTENT_LEN
      · rw [if_pos h2] at h
        refine ih _ st' hsubrest ?_ ?_ h
        · exact hout
        · exact Or.inr h2
      · rw [if_neg h2] at h
        refine ih _ st' hsubrest ?_ (Or.inr h1) h
        exact flush_out_classify hd ch body st hout hbuf
    · rw [if_neg h1] at h
      rcases hcs : sacSentenceChunks hd ch (stripNl (sliceN body s e)) (body.length + 1)
          with _ | cs
      · rw [hcs] at h
        exact absurd h (by simp)
      · rw [hcs] at h
        have hcsclass : ∀ c ∈ cs, chunkFromSplit hd body ch c := by
          obtain ⟨parts, hparts, hmem⟩ :=
            sacSentenceChunks_mem hd ch _ (body.length + 1) cs hcs
          intro c hc
          obtain ⟨idx, part, hg, hceq⟩ := hmem c hc
          refine ⟨s, e, parts, idx, part, hin, by omega, hparts, hg, hceq, ?_⟩
          exact sacSentenceChunks_le hd ch _ (body.length + 1) cs hh hcs c hc
        refine ih _ st' hsubrest ?_ ?_ h
        · intro c hc
          rcases List.mem_append.mp hc with hc | hc
          · exact flush_out_classify hd ch body st hout hbuf c hc
          · exact Or.inr (hcsclass c hc)
        · rcases flush_buf_buf hd ch st with hb | hb
          · rw [hb]
            exact Or.inl rfl
          · rw [hb]
            exact hbuf

/-- Claim C1 (amended): for an article whose header line has length at most
T−2, every emitted chunk is of one of three kinds, each with its bound:
the whole-article chunk of the fast path (content ≤ T = 1500); a
buffer-flush chunk — header plus a stripped buffer that was within the
budget — with content ≤ T; or a sentence-level part of one specific
oversized clause block, whose content is bounded by T plus that block's
own clause-title and quoted-title context lines (each with its joining
newline), since those lines are prepended after the per-part limit
`T − len(header) − 1` has been used. -/
theorem C1_amended_content_bound :
    ∀ (hd body ch : Str) (out : List Chunk), hd.length + 2 ≤ MAX_CONTENT_LEN →
      split_article_content hd body ch = some out →
      ∀ c ∈ out,
        chunkFromWhole hd body c ∨ chunkFromFlush hd c ∨ chunkFromSplit hd body ch c := by
  intro hd body ch out hh h
  unfold split_article_content at h
  dsimp only at h
  by_cases h1 : (hd ++ if body ≠ [] then '\n' :: body else []).length ≤ MAX_CONTENT_LEN
  · rw [if_pos h1] at h
    injection h with h
    subst h
    intro c hc
    have hcc := List.mem_singleton.mp hc
    subst hcc
    exact Or.inl ⟨rfl, h1⟩
  · rw [if_neg h1] at h
    rcases hsb : sacBlocks hd ch body (body.length + 1) (blocksOf body) ⟨[], []⟩
        with _ | st
    · rw [hsb] at h
      exact absurd h (by simp)
    · rw [hsb] at h
      injection h with h
      subst h
      have hB := sacBlocks_classify hd ch body hh (blocksOf body) ⟨[], []⟩ st
        (fun se hse => hse) (by simp) (Or.inl rfl) hsb
      intro c hc
      by_cases hbne : st.buf ≠ []
      · rw [if_pos hbne] at hc
        exact Or.inr (flush_out_classify hd ch body st hB.1 hB.2 c hc)
      · rw [if_neg hbne] at hc
        exact Or.inr (hB.1 c hc)

/-- Witness for the amended C1 classification at a concrete small article:
its single chunk is the whole-article kind, within the limit. -/
theorem C1_amended_content_bound_witness :
    chunkFromWhole Inputs.hdrD1 Inputs.bodyW
        (Chunk.mk (Inputs.hdrD1 ++ '\n' :: Inputs.bodyW) [] Inputs.hdrD1) ∨
    chunkFromFlush Inputs.hdrD1
        (Chunk.mk (Inputs.hdrD1 ++ '\n' :: Inputs.bodyW) [] Inputs.hdrD1) ∨
    chunkFromSplit Inputs.hdrD1 Inputs.bodyW []
        (Chunk.mk (Inputs.hdrD1 ++ '\n' :: Inputs.bodyW) [] Inputs.hdrD1) :=
  C1_amended_content_bound Inputs.hdrD1 Inputs.bodyW []
    [Chunk.mk (Inputs.hdrD1 ++ '\n' :: Inputs.bodyW) [] Inputs.hdrD1]
    (by decide) (by decide) _ (List.mem_singleton.mpr rfl)

end DocxChunker

namespace DocxChunker

theorem partOffsets_foldl_aux :
    ∀ (parts : List Str) (acc : List Nat) (base : Nat),
      (parts.foldl (fun st p => (st.1 ++ [st.2], st.2 + p.length)) (acc, base)).1 =
        acc ++ offsetsFrom base parts := by
  intro parts
  induction parts with
  | nil =>
    intro acc base
    simp [offsetsFrom]
  | cons p ps ih =>
    intro acc base
    simp only [List.foldl_cons]
    rw [ih]
    simp [offsetsFrom]

theorem partOffsets_eq (parts : List Str) : partOffsets parts = offsetsFrom 0 parts := by
  unfold partOffsets
  rw [partOffsets_foldl_aux]
  simp

theorem offsets_le_starts :
    ∀ (trace : List (Int × Str)) (base : Nat),
      (∀ a, trace.head? = some a → (base : Int) ≤ a.1) →
      List.Chain' (fun a b => a.1 + (a.2.length : Int) ≤ b.1) trace →
      ∀ k a o, trace.get? k = some a →
        (offsetsFrom base (trace.map Prod.snd)).get? k = some o → (o : Int) ≤ a.1 := by
  intro trace
  induction trace with
  | nil =>
    intro base _ _ k a o h
    simp at h
  | cons x xs ih =>
    intro base hhead hch k a o ha ho
    cases k with
    | zero =>
      simp only [List.get?] at ha
      injection ha with ha
      subst ha
      simp only [List.map_cons, offsetsFrom, List.get?] at ho
      injection ho with ho
      subst ho
      exact hhead x rfl
    | succ k =>
      simp only [List.get?] at ha
      simp only [List.map_cons, offsetsFrom, List.get?] at ho
      refine ih (base + x.2.length) ?_ hch.tail k a o ha ho
      intro b hb
      cases xs with
      | nil => simp at hb
      | cons y ys =>
        simp only [List.head?] at hb
        injection hb with hb
        subst hb
        have hr := (List.chain'_cons.mp hch).1
        have hx := hhead x rfl
        push_cast
        omega

theorem offsets_eq_starts :
    ∀ (trace : List (Int × Str)) (base : Nat),
      (∀ a, trace.head? = some a → (base : Int) = a.1) →
      List.Chain' (fun a b => a.1 + (a.2.length : Int) = b.1) trace →
      ∀ k a o, trace.get? k = some a →
        (offsetsFrom base (trace.map Prod.snd)).get? k = some o → (o : Int) = a.1 := by
  intro trace
  induction trace with
  | nil =>
    intro base _ _ k a o h
    simp at h
  | cons x xs ih =>
    intro base hhead hch k a o ha ho
    cases k with
    | zero =>
      simp only [List.get?] at ha
      injection ha with ha
      subst ha
      simp only [List.map_cons, offsetsFrom, List.get?] at ho
      injection ho with ho
      subst ho
      exact hhead x rfl
    | succ k =>
      simp only [List.get?] at ha
      simp only [List.map_cons, offsetsFrom, List.get?] at ho
      refine ih (base + x.2.length) ?_ hch.tail k a o ha ho
      intro b hb
      cases xs with
      | nil => simp at hb
      | cons y ys =>
        simp only [List.head?] at hb
        injection hb with hb
        subst hb
        have hr := (List.chain'_cons.mp hch).1
        have hx := hhead x rfl
        push_cast
        omega

theorem sltasGoTr_map (t : Str) (L : Int) :
    ∀ (fuel : Nat) (i : Int) (acc : List (Int × Str)),
      sltasGo t L fuel i (acc.map Prod.snd) = (sltasGoTr t L fuel i acc).map (List.map Prod.snd) := by
  intro fuel
  induction fuel with
  | zero =>
    intro i acc
    rfl
  | succ n ih =>
    intro i acc
    simp only [sltasGo, sltasGoTr]
    by_cases hin : i < (t.length : Int)
    · rw [if_pos hin, if_pos hin]
      by_cases hee : min (i + L) (t.length : Int) = (t.length : Int)
      · rw [if_pos hee, if_pos hee]
        simp
      · rw [if_neg hee, if_neg hee]
        have heq : acc.map Prod.snd ++
            [pyRstrip (pySlice t i (sltasSplit t i (min (i + L) (t.length : Int))))] =
            (acc ++ [(i, pyRstrip (pySlice t i (sltasSplit t i
              (min (i + L) (t.length : Int)))))]).map Prod.snd := by
          simp
        rw [heq]
        exact ih _ _
    · rw [if_neg hin, if_neg hin]
      rfl

theorem sltasGoTr_chain (t : Str) (L : Int) (hL : 1 ≤ L) :
    ∀ (fuel : Nat) (i : Int) (acc trace : List (Int × Str)),
      0 ≤ i →
      List.Chain' (fun a b => a.1 + (a.2.length : Int) ≤ b.1) acc →
      (∀ a, acc.getLast? = some a → a.1 + (a.2.length : Int) ≤ i) →
      sltasGoTr t L fuel i acc = some trace →
      List.Chain' (fun a b => a.1 + (a.2.length : Int) ≤ b.1) trace ∧
      ∃ ext, trace = acc ++ ext ∧ ∀ a, ext.head? = some a → a.1 = i := by
  intro fuel
  induction fuel with
  | zero =>
    intro i acc trace _ _ _ h
    exact absurd h (by simp [sltasGoTr])
  | succ n ih =>
    intro i acc trace hi hacc hlast h
    simp only [sltasGoTr] at h
    by_cases hin : i < (t.length : Int)
    · rw [if_pos hin] at h
      by_cases hee : min (i + L) (t.length : Int) = (t.length : Int)
      · rw [if_pos hee] at h
        injection h with h
        subst h
        constructor
        · rw [List.chain'_append]
          refine ⟨hacc, List.chain'_singleton _, ?_⟩
          intro x hx y hy
          simp only [List.head?, Option.mem_def] at hy
          injection hy with hy
          subst hy
          exact hlast x hx
        · exact ⟨[(i, pyRstrip (pySliceFrom t i))], rfl, by
            intro a ha
            simp only [List.head?] at ha
            injection ha with ha
            subst ha
            rfl⟩
      · rw [if_neg hee] at h
        have hiLn : i + L < (t.length : Int) := by
          by_contra hc
          exact hee (min_eq_right (by omega))
        have hemin : min (i + L) (t.length : Int) = i + L := min_eq_left (by omega)
        have hie : i < min (i + L) (t.length : Int) := by
          rw [hemin]
          omega
        have hs0 : (0 : Int) ≤ min (i + L) (t.length : Int) := by
          rw [hemin]
          omega
        have hsgt : i < sltasSplit t i (min (i + L) (t.length : Int)) := sltasSplit_gt hie
        have hsnn : (0 : Int) ≤ sltasSplit t i (min (i + L) (t.length : Int)) :=
          sltasSplit_nonneg hs0
        have hpartlen : i + ((pyRstrip (pySlice t i
            (sltasSplit t i (min (i + L) (t.length : Int))))).length : Int) ≤
            sltasSplit t i (min (i + L) (t.length : Int)) := by
          have h1 := length_pyRstrip_le (pySlice t i (sltasSplit t i
            (min (i + L) (t.length : Int))))
          have h2 := length_pySlice_le t i (sltasSplit t i (min (i + L) (t.length : Int)))
          have h3 : pyIdx t.length i = i.toNat := pyIdx_of_le hi (by omega)
          have h4 : pyIdx t.length (sltasSplit t i (min (i + L) (t.length : Int))) ≤
              (sltasSplit t i (min (i + L) (t.length : Int))).toNat :=
            pyIdx_le_toNat _ _ hsnn
          omega
        have hrec := ih (sltasSplit t i (min (i + L) (t.length : Int)))
          (acc ++ [(i, pyRstrip (pySlice t i (sltasSplit t i (min (i + L) (t.length : Int)))))])
          trace (by omega) ?_ ?_ h
        · obtain ⟨hch, ext', hext', hhd⟩ := hrec
          refine ⟨hch, (i, pyRstrip (pySlice t i
            (sltasSplit t i (min (i + L) (t.length : Int))))) :: ext', ?_, ?_⟩
          · rw [hext']
            simp
          · intro a ha
            simp only [List.head?] at ha
            injection ha with ha
            subst ha
            rfl
        · rw [List.chain'_append]
          refine ⟨hacc, List.chain'_singleton _, ?_⟩
          intro x hx y hy
          simp only [List.head?, Option.mem_def] at hy
          injection hy with hy
          subst hy
          exact hlast x hx
        · intro a ha
          rw [List.getLast?_concat] at ha
          injection ha with ha
          subst ha
          exact hpartlen
    · rw [if_neg hin] at h
      injection h with h
      subst h
      exact ⟨hacc, [], by simp, by simp⟩

theorem partChunk_content_spec (hd ch : Str) (kt qt : Option Str) (spans : List QSpan)
    (offsets : List Nat) (idx : Nat) (part : Str) :
    (partChunk hd ch kt qt spans offsets idx part).content =
      specPartContent hd kt qt (is_offset_in_any_span (offsets.getD idx 0) spans) idx part := by
  unfold partChunk specPartContent
  dsimp only
  by_cases hk : 0 < idx ∧ optTruthy kt = true
  · rw [if_pos hk]
    by_cases hq : is_offset_in_any_span (offsets.getD idx 0) spans = true ∧
        optTruthy qt = true ∧ pyStrip (qt.getD []) ≠ pyStrip (part.takeWhile (· ≠ '\n'))
    · rw [if_pos hq, if_pos hk, if_pos hq]
    · rw [if_neg hq, if_pos hk, if_neg hq]
      simp
  · rw [if_neg hk]
    by_cases hq : is_offset_in_any_span (offsets.getD idx 0) spans = true ∧
        optTruthy qt = true ∧ pyStrip (qt.getD []) ≠ pyStrip (part.takeWhile (· ≠ '\n'))
    · rw [if_pos hq, if_neg hk, if_pos hq]
      simp
    · rw [if_neg hq, if_neg hk, if_neg hq]
      simp

end DocxChunker

namespace DocxChunker

open Inputs

/-- Claim C7 (amended): the splitter's tracked starting offsets are the
cumulative lengths of the earlier right-stripped parts; each tracked offset
is at most the actual index at which its part begins in the block, with
equality for every part whenever no part lost trailing whitespace (adjacent
actual starts differ by exactly the stored part length); and the chunk
built for a part prepends quotedTitle exactly when the tracked offset
satisfies `insideQuote`, a quoted title exists (truthy) and it is not
already the part's own (stripped) first line. -/
theorem C7_amended_tracked_offsets :
    ∀ (t : Str) (L : Int) (fuel : Nat) (trace : List (Int × Str)),
      1 ≤ L →
      sltasTrace t L fuel = some trace →
      split_long_text_at_sentence t L fuel = some (trace.map Prod.snd) ∧
      (∀ k a o, trace.get? k = some a →
        (partOffsets (trace.map Prod.snd)).get? k = some o → (o : Int) ≤ a.1) ∧
      (List.Chain' (fun a b => a.1 + (a.2.length : Int) = b.1) trace →
        ∀ k a o, trace.get? k = some a →
          (partOffsets (trace.map Prod.snd)).get? k = some o → (o : Int) = a.1) ∧
      (∀ (hd ch : Str) (kt qt : Option Str) (spans : List QSpan) (offsets : List Nat)
          (idx : Nat) (part : Str),
        (partChunk hd ch kt qt spans offsets idx part).content =
          specPartContent hd kt qt (is_offset_in_any_span (offsets.getD idx 0) spans)
            idx part) := by
  intro t L fuel trace hL htr
  have hmap := sltasGoTr_map t L fuel 0 []
  rw [show (([] : List (Int × Str)).map Prod.snd) = [] from rfl] at hmap
  have hchain := sltasGoTr_chain t L hL fuel 0 [] trace (by omega)
    (List.chain'_nil) (by simp) htr
  obtain ⟨hch, ext, hext, hhd⟩ := hchain
  have hhead0 : ∀ a, trace.head? = some a → a.1 = 0 := by
    intro a ha
    rw [hext] at ha
    simp only [List.nil_append] at ha
    exact hhd a ha
  refine ⟨?_, ?_, ?_, ?_⟩
  · unfold split_long_text_at_sentence
    unfold sltasTrace at htr
    rw [hmap, htr]
    rfl
  · intro k a o ha ho
    rw [partOffsets_eq] at ho
    exact offsets_le_starts trace 0 (by
      intro b hb
      rw [hhead0 b hb]
      simp) hch k a o ha ho
  · intro hcheq k a o ha ho
    rw [partOffsets_eq] at ho
    exact offsets_eq_starts trace 0 (by
      intro b hb
      rw [hhead0 b hb]
      simp) hcheq k a o ha ho
  · intro hd ch kt qt spans offsets idx part
    exact partChunk_content_spec hd ch kt qt spans offsets idx part

/-- Witness for the amended C7 statement at the counterexample's block. -/
theorem C7_amended_tracked_offsets_witness :
    split_long_text_at_sentence segC7 4 6 =
      some ([((0 : Int), partAB), (3, partCD)].map Prod.snd) :=
  (C7_amended_tracked_offsets segC7 4 6 [((0 : Int), partAB), (3, partCD)]
    (by decide) (by decide)).1

end DocxChunker

namespace DocxChunker

theorem length_stripNl_le (l : Str) : (stripNl l).length ≤ l.length := by
  unfold stripNl lstripBy
  exact le_trans (dropWhile_length_le _ _) (length_rstripBy_le _ _)

theorem length_sliceN_le (b : Str) (s e : Nat) : (sliceN b s e).length ≤ b.length := by
  unfold sliceN
  simp only [List.length_take, List.length_drop]
  omega

theorem sltasGo_some (t : Str) (L : Int) (hL : 1 ≤ L) :
    ∀ (fuel : Nat) (i : Int) (acc : List Str), 0 ≤ i → i ≤ (t.length : Int) →
      (t.length : Int) - i < fuel →
      ∃ res, sltasGo t L fuel i acc = some res := by
  intro fuel
  induction fuel with
  | zero =>
    intro i acc hi hle hf
    exact absurd hf (by omega)
  | succ f ih =>
    intro i acc hi hle hf
    simp only [sltasGo]
    by_cases hin : i < (t.length : Int)
    · rw [if_pos hin]
      by_cases hee : min (i + L) (t.length : Int) = (t.length : Int)
      · rw [if_pos hee]
        exact ⟨_, rfl⟩
      · rw [if_neg hee]
        have hiLn : i + L < (t.length : Int) := by
          by_contra hc
          exact hee (min_eq_right (by omega))
        have hemin : min (i + L) (t.length : Int) = i + L := min_eq_left (by omega)
        have hie : i < min (i + L) (t.length : Int) := by
          rw [hemin]
          omega
        have hsgt := @sltasSplit_gt t i (min (i + L) (t.length : Int)) hie
        have hsle := @sltasSplit_le t i (min (i + L) (t.length : Int))
          (show (0 : Int) ≤ min (i + L) (t.length : Int) by omega)
        exact ih (sltasSplit t i (min (i + L) (t.length : Int))) _ (by omega) (by omega)
          (by omega)
    · rw [if_neg hin]
      exact ⟨acc, rfl⟩

theorem sltasGo_len_mono (t : Str) (L : Int) :
    ∀ (fuel : Nat) (i : Int) (acc res : List Str),
      sltasGo t L fuel i acc = some res → acc.length ≤ res.length := by
  intro fuel
  induction fuel with
  | zero =>
    intro i acc res h
    exact absurd h (by simp [sltasGo])
  | succ f ih =>
    intro i acc res h
    simp only [sltasGo] at h
    by_cases hin : i < (t.length : Int)
    · rw [if_pos hin] at h
      by_cases hee : min (i + L) (t.length : Int) = (t.length : Int)
      · rw [if_pos hee] at h
        injection h with h
        subst h
        simp
      · rw [if_neg hee] at h
        have := ih _ _ _ h
        simp only [List.length_append, List.length_cons, List.length_nil] at this
        omega
    · rw [if_neg hin] at h
      injection h with h
      subst h
      exact le_refl _

theorem sltasGo_two (t : Str) (L : Int) (hL : 1 ≤ L) (hLn : L < (t.length : Int)) :
    ∀ (fuel : Nat) (res : List Str),
      sltasGo t L fuel 0 [] = some res → 2 ≤ res.length := by
  intro fuel res h
  cases fuel with
  | zero => exact absurd h (by simp [sltasGo])
  | succ f =>
    simp only [sltasGo] at h
    have hn0 : (0 : Int) < (t.length : Int) := by omega
    rw [if_pos hn0] at h
    have hmin : min ((0 : Int) + L) (t.length : Int) = L := by
      rw [zero_add]
      exact min_eq_left (by omega)
    have hee : ¬ min ((0 : Int) + L) (t.length : Int) = (t.length : Int) := by
      rw [hmin]
      omega
    rw [if_neg hee] at h
    have hie : (0 : Int) < min ((0 : Int) + L) (t.length : Int) := by
      rw [hmin]
      omega
    have hsgt := @sltasSplit_gt t 0 (min ((0 : Int) + L) (t.length : Int)) hie
    have hsle := @sltasSplit_le t 0 (min ((0 : Int) + L) (t.length : Int))
      (show (0 : Int) ≤ min ((0 : Int) + L) (t.length : Int) by omega)
    cases f with
    | zero => exact absurd h (by simp [sltasGo])
    | succ f2 =>
      simp only [sltasGo] at h
      have hsn : sltasSplit t 0 (min ((0 : Int) + L) (t.length : Int)) < (t.length : Int) := by
        omega
      rw [if_pos hsn] at h
      by_cases he2 : min (sltasSplit t 0 (min ((0 : Int) + L) (t.length : Int)) + L)
          (t.length : Int) = (t.length : Int)
      · rw [if_pos he2] at h
        injection h with h
        subst h
        simp
      · rw [if_neg he2] at h
        have := sltasGo_len_mono t L f2 _ _ _ h
        simp only [List.length_append, List.length_cons, List.length_nil] at this
        omega

theorem pyStrip_eq_nil_iff (l : Str) : pyStrip l = [] ↔ ∀ c ∈ l, pyIsSpace c = true := by
  constructor
  · intro h c hc
    unfold pyStrip lstripBy at h
    have hall : ∀ x ∈ rstripBy pyIsSpace l, pyIsSpace x = true := by
      intro x hx
      exact List.dropWhile_eq_nil_iff.mp h x hx
    have hsplit : l.reverse.takeWhile pyIsSpace ++ l.reverse.dropWhile pyIsSpace = l.reverse :=
      List.takeWhile_append_dropWhile pyIsSpace l.reverse
    have hc' : c ∈ l.reverse := List.mem_reverse.mpr hc
    rw [← hsplit] at hc'
    rcases List.mem_append.mp hc' with hc' | hc'
    · exact List.mem_takeWhile_imp hc'
    · refine hall c ?_
      unfold rstripBy
      exact List.mem_reverse.mpr hc'
  · intro h
    unfold pyStrip lstripBy
    rw [List.dropWhile_eq_nil_iff]
    intro x hx
    refine h x ?_
    unfold rstripBy at hx
    have hx' := List.mem_reverse.mp hx
    have hsub : (l.reverse.dropWhile pyIsSpace).Sublist l.reverse :=
      List.dropWhile_sublist pyIsSpace
    have := hsub.mem hx'
    exact List.mem_reverse.mp this

theorem pyStrip_append_ne {x : Str} (y : Str) (hx : pyStrip x ≠ []) :
    pyStrip (x ++ y) ≠ [] := by
  intro hcon
  refine hx (pyStrip_eq_nil_iff x |>.mpr ?_)
  intro c hc
  exact (pyStrip_eq_nil_iff (x ++ y)).mp hcon c (List.mem_append_left y hc)

theorem flush_buf_out_eq (hd ch : Str) (st : SacSt) :
    ∃ ex, (flush_buf hd ch st).out = st.out ++ ex ∧
      (pyStrip st.buf ≠ [] → ex.length = 1) ∧ (pyStrip st.buf = [] → ex = []) := by
  unfold flush_buf
  by_cases hb : pyStrip st.buf = []
  · rw [if_pos hb]
    exact ⟨[], by simp, fun h => absurd hb h, fun _ => rfl⟩
  · rw [if_neg hb]
    exact ⟨[⟨hd ++ '\n' :: pyStrip st.buf, ch, hd⟩], rfl, fun _ => rfl, fun h => absurd h hb⟩

theorem sacBlocks_out_prefix (hd ch body : Str) (fuel : Nat) :
    ∀ (blocks : List (Nat × Nat)) (st st' : SacSt),
      sacBlocks hd ch body fuel blocks st = some st' →
      ∃ extra, st'.out = st.out ++ extra := by
  intro blocks
  induction blocks with
  | nil =>
    intro st st' h
    simp only [sacBlocks] at h
    injection h with h
    subst h
    exact ⟨[], by simp⟩
  | cons se rest ih =>
    intro st st' h
    obtain ⟨s, e⟩ := se
    simp only [sacBlocks] at h
    by_cases h1 : hd.length + 1 + (stripNl (sliceN body s e)).length ≤ MAX_CONTENT_LEN
    · rw [if_pos h1] at h
      by_cases h2 : hd.length + 1 +
          (if st.buf = [] then stripNl (sliceN body s e)
           else st.buf ++ '\n' :: stripNl (sliceN body s e)).length ≤ MAX_CONTENT_LEN
      · rw [if_pos h2] at h
        obtain ⟨extra, hex⟩ := ih _ _ h
        exact ⟨extra, hex⟩
      · rw [if_neg h2] at h
        obtain ⟨extra, hex⟩ := ih _ _ h
        obtain ⟨ex1, hex1, -, -⟩ := flush_buf_out_eq hd ch st
        exact ⟨ex1 ++ extra, by rw [hex]; dsimp only; rw [hex1]; simp⟩
    · rw [if_neg h1] at h
      rcases hcs : sacSentenceChunks hd ch (stripNl (sliceN body s e)) fuel with _ | cs
      · rw [hcs] at h
        exact absurd h (by simp)
      · rw [hcs] at h
        obtain ⟨extra, hex⟩ := ih _ _ h
        obtain ⟨ex1, hex1, -, -⟩ := flush_buf_out_eq hd ch st
        exact ⟨ex1 ++ cs ++ extra, by rw [hex]; dsimp only; rw [hex1]; simp⟩

end DocxChunker

namespace DocxChunker

theorem sacSentenceChunks_some (hd ch seg : Str) (fuel : Nat)
    (hh : hd.length + 2 ≤ MAX_CONTENT_LEN) (hfuel : seg.length < fuel) :
    ∃ cs, sacSentenceChunks hd ch seg fuel = some cs ∧
      (MAX_CONTENT_LEN < hd.length + 1 + seg.length → 2 ≤ cs.length) := by
  have hL : (1 : Int) ≤ (MAX_CONTENT_LEN : Int) - (hd.length : Int) - 1 := by
    unfold MAX_CONTENT_LEN at hh ⊢
    omega
  obtain ⟨parts, hp⟩ := sltasGo_some seg ((MAX_CONTENT_LEN : Int) - (hd.length : Int) - 1)
    hL fuel 0 [] (by omega) (by omega) (by omega)
  refine ⟨parts.enum.map (fun ip =>
    partChunk hd ch (leading_khoan_title seg) (first_quoted_title_line seg)
      (compute_quote_spans seg) (partOffsets parts) ip.1 ip.2), ?_, ?_⟩
  · unfold sacSentenceChunks split_long_text_at_sentence
    dsimp only
    rw [hp]
  · intro hover
    have hlt : (MAX_CONTENT_LEN : Int) - (hd.length : Int) - 1 < (seg.length : Int) := by
      unfold MAX_CONTENT_LEN at hover ⊢
      omega
    have h2 := sltasGo_two seg _ hL hlt fuel parts hp
    simpa using h2

theorem sacBlocks_some (hd ch body : Str) (fuel : Nat)
    (hh : hd.length + 2 ≤ MAX_CONTENT_LEN) (hfuel : body.length < fuel) :
    ∀ (blocks : List (Nat × Nat)) (st : SacSt),
      ∃ st', sacBlocks hd ch body fuel blocks st = some st' := by
  intro blocks
  induction blocks with
  | nil =>
    intro st
    exact ⟨st, rfl⟩
  | cons se rest ih =>
    intro st
    obtain ⟨s, e⟩ := se
    by_cases h1 : hd.length + 1 + (stripNl (sliceN body s e)).length ≤ MAX_CONTENT_LEN
    · by_cases h2 : hd.length + 1 +
          (if st.buf = [] then stripNl (sliceN body s e)
           else st.buf ++ '\n' :: stripNl (sliceN body s e)).length ≤ MAX_CONTENT_LEN
      · obtain ⟨st', hst'⟩ := ih ⟨st.out,
          if st.buf = [] then stripNl (sliceN body s e)
          else st.buf ++ '\n' :: stripNl (sliceN body s e)⟩
        exact ⟨st', by
          simp only [sacBlocks]
          rw [if_pos h1, if_pos h2]
          exact hst'⟩
      · obtain ⟨st', hst'⟩ := ih ⟨(flush_buf hd ch st).out, stripNl (sliceN body s e)⟩
        exact ⟨st', by
          simp only [sacBlocks]
          rw [if_pos h1, if_neg h2]
          exact hst'⟩
    · have hseg : (stripNl (sliceN body s e)).length < fuel :=
        lt_of_le_of_lt (le_trans (length_stripNl_le _) (length_sliceN_le body s e)) hfuel
      obtain ⟨cs, hcs, -⟩ := sacSentenceChunks_some hd ch _ fuel hh hseg
      obtain ⟨st', hst'⟩ := ih ⟨(flush_buf hd ch st).out ++ cs, (flush_buf hd ch st).buf⟩
      exact ⟨st', by
        simp only [sacBlocks]
        rw [if_neg h1, hcs]
        exact hst'⟩

theorem sacBlocks_emits (hd ch body : Str) (fuel : Nat) :
    ∀ (blocks : List (Nat × Nat)) (st st' : SacSt),
      pyStrip st.buf ≠ [] →
      sacBlocks hd ch body fuel blocks st = some st' →
      st.out.length + 1 ≤ st'.out.length + (if pyStrip st'.buf = [] then 0 else 1) := by
  intro blocks
  induction blocks with
  | nil =>
    intro st st' hb h
    simp only [sacBlocks] at h
    injection h with h
    subst h
    rw [if_neg hb]
  | cons se rest ih =>
    intro st st' hb h
    obtain ⟨s, e⟩ := se
    simp only [sacBlocks] at h
    by_cases h1 : hd.length + 1 + (stripNl (sliceN body s e)).length ≤ MAX_CONTENT_LEN
    · rw [if_pos h1] at h
      by_cases h2 : hd.length + 1 +
          (if st.buf = [] then stripNl (sliceN body s e)
           else st.buf ++ '\n' :: stripNl (sliceN body s e)).length ≤ MAX_CONTENT_LEN
      · rw [if_pos h2] at h
        have hbne : st.buf ≠ [] := by
          intro hc
          apply hb
          rw [hc]
          rfl
        rw [if_neg hbne] at h
        have hres := ih _ st' (pyStrip_append_ne _ hb) h
        simpa using hres
      · rw [if_neg h2] at h
        obtain ⟨extra, hex⟩ := sacBlocks_out_prefix hd ch body fuel rest _ _ h
        obtain ⟨ex1, hex1, hlen1, -⟩ := flush_buf_out_eq hd ch st
        have h1l := hlen1 hb
        dsimp only at hex
        rw [hex1] at hex
        have hlen : st'.out.length = st.out.length + ex1.length + extra.length := by
          rw [hex]
          simp only [List.length_append]
        by_cases hsb : pyStrip st'.buf = []
        · rw [if_pos hsb]
          omega
        · rw [if_neg hsb]
          omega
    · rw [if_neg h1] at h
      rcases hcs : sacSentenceChunks hd ch (stripNl (sliceN body s e)) fuel with _ | cs
      · rw [hcs] at h
        exact absurd h (by simp)
      · rw [hcs] at h
        obtain ⟨extra, hex⟩ := sacBlocks_out_prefix hd ch body fuel rest _ _ h
        obtain ⟨ex1, hex1, hlen1, -⟩ := flush_buf_out_eq hd ch st
        have h1l := hlen1 hb
        dsimp only at hex
        rw [hex1] at hex
        have hlen : st'.out.length =
            st.out.length + ex1.length + cs.length + extra.length := by
          rw [hex]
          simp only [List.length_append]
        by_cases hsb : pyStrip st'.buf = []
        · rw [if_pos hsb]
          omega
        · rw [if_neg hsb]
          omega

end DocxChunker

namespace DocxChunker

theorem dropWhile_eq_self_of_length (p : Char → Bool) :
    ∀ (l : Str), (l.dropWhile p).length = l.length → l.dropWhile p = l := by
  intro l
  cases l with
  | nil => intro _; rfl
  | cons c rest =>
    intro h
    by_cases hc : p c
    · rw [List.dropWhile_cons_of_pos hc] at h ⊢
      have := dropWhile_length_le p rest
      simp at h
      omega
    · rw [List.dropWhile_cons_of_neg hc]

theorem dropWhile_eq_self_head (p : Char → Bool) :
    ∀ (l : Str), l.dropWhile p = l → ∀ c, l.head? = some c → p c = false := by
  intro l
  cases l with
  | nil =>
    intro _ c hc
    simp at hc
  | cons x rest =>
    intro h c hc
    simp only [List.head?] at hc
    injection hc with hc
    subst hc
    by_cases hx : p x
    · rw [List.dropWhile_cons_of_pos hx] at h
      have h1 := dropWhile_length_le p rest
      have h2 : (rest.dropWhile p).length = (x :: rest).length := by rw [h]
      simp at h2
      omega
    · simp [hx]

theorem pyStrip_self_rstrip {l : Str} (h : pyStrip l = l) : rstripBy pyIsSpace l = l := by
  have hlen : (pyStrip l).length = l.length := by rw [h]
  have h1 : (pyStrip l).length ≤ (rstripBy pyIsSpace l).length := by
    unfold pyStrip lstripBy
    exact dropWhile_length_le _ _
  have h2 : (rstripBy pyIsSpace l).length ≤ l.length := length_rstripBy_le _ _
  have h3 : (rstripBy pyIsSpace l).length = l.length := by omega
  unfold rstripBy at h3 ⊢
  have h4 : (l.reverse.dropWhile pyIsSpace).length = l.reverse.length := by
    simp only [List.length_reverse] at h3 ⊢
    simpa using h3
  rw [dropWhile_eq_self_of_length pyIsSpace l.reverse h4]
  exact List.reverse_reverse l

theorem pyStrip_self_head {l : Str} (h : pyStrip l = l) :
    ∀ c, l.head? = some c → pyIsSpace c = false := by
  have hr := pyStrip_self_rstrip h
  have hl : l.dropWhile pyIsSpace = l := by
    have := h
    unfold pyStrip lstripBy at this
    rw [hr] at this
    exact this
  exact dropWhile_eq_self_head pyIsSpace l hl

theorem pyStrip_self_getLast {l : Str} (h : pyStrip l = l) :
    ∀ c, l.getLast? = some c → pyIsSpace c = false := by
  have hr := pyStrip_self_rstrip h
  intro c hc
  unfold rstripBy at hr
  have hrev : l.reverse.dropWhile pyIsSpace = l.reverse := by
    have := congrArg List.reverse hr
    rwa [List.reverse_reverse] at this
  refine dropWhile_eq_self_head pyIsSpace l.reverse hrev c ?_
  rw [List.head?_reverse]
  exact hc

theorem noConsecNl_adj :
    ∀ (l : Str), noConsecNl l = true →
      ∀ i, l.get? i = some '\n' → l.get? (i + 1) ≠ some '\n' := by
  intro l
  induction l with
  | nil =>
    intro _ i hi
    simp at hi
  | cons c rest ih =>
    intro h i hi
    cases rest with
    | nil =>
      cases i with
      | zero => simp
      | succ j => simp at hi
    | cons c' r =>
      have hsplit : (!(c = '\n' && c' = '\n') && noConsecNl (c' :: r)) = true := h
      rw [Bool.and_eq_true] at hsplit
      cases i with
      | zero =>
        simp only [List.get?] at hi ⊢
        injection hi with hi
        intro hcon
        injection hcon with hcon
        rw [hi, hcon] at hsplit
        simp at hsplit
      | succ j =>
        simp only [List.get?] at hi ⊢
        exact ih hsplit.2 j hi

theorem digit_not_ws {c : Char} (h : Char.isDigit c = true) : pyIsSpace c = false := by
  by_contra hcon
  have hws : pyIsSpace c = true := by
    cases hpy : pyIsSpace c
    · exact absurd hpy hcon
    · rfl
  unfold pyIsSpace at hws
  simp only [Bool.or_eq_true, decide_eq_true_eq] at hws
  unfold Char.isDigit at h
  rcases hws with (((((h1 | h1) | h1) | h1) | h1) | h1) | h1 <;> subst h1 <;> simp at h

theorem sliceN_length {b : Str} {s e : Nat} (hse : s ≤ e) (heb : e ≤ b.length) :
    (sliceN b s e).length = e - s := by
  unfold sliceN
  simp only [List.length_take, List.length_drop]
  omega

theorem sliceN_get? {b : Str} {s e j : Nat} (hj : j < e - s) :
    (sliceN b s e).get? j = b.get? (s + j) := by
  unfold sliceN
  rw [List.get?_take hj, List.get?_drop]

theorem joinBuf_length :
    ∀ (segs : List Str) (buf : Str), buf ≠ [] →
      (joinBuf buf segs).length = buf.length + (segs.map List.length).sum + segs.length := by
  intro segs
  induction segs with
  | nil =>
    intro buf _
    simp [joinBuf]
  | cons sg rest ih =>
    intro buf hbuf
    unfold joinBuf
    simp only [List.foldl_cons]
    rw [if_neg hbuf]
    have := ih (buf ++ '\n' :: sg) (by simp)
    unfold joinBuf at this
    rw [this]
    simp only [List.length_append, List.length_cons, List.map_cons, List.sum_cons]
    omega

end DocxChunker

namespace DocxChunker

theorem countWhile_le (p : Char → Bool) : ∀ l : Str, countWhile p l ≤ l.length := by
  intro l
  induction l with
  | nil => simp [countWhile]
  | cons c rest ih =>
    unfold countWhile
    by_cases hc : p c
    · rw [if_pos hc]
      simpa using ih
    · rw [if_neg hc]
      simp

theorem countWhile_head {p : Char → Bool} {l : Str} (h : 0 < countWhile p l) :
    ∃ c, l.head? = some c ∧ p c = true := by
  cases l with
  | nil => simp [countWhile] at h
  | cons c rest =>
    unfold countWhile at h
    by_cases hc : p c
    · exact ⟨c, rfl, hc⟩
    · rw [if_neg hc] at h
      simp at h

theorem head?_some_pos {α : Type} {l : List α} {c : α} (h : l.head? = some c) :
    0 < l.length := by
  cases l with
  | nil => simp at h
  | cons x rest => simp

theorem khoanTry_shape {l : Str} {len : Nat} (h : khoanTry l = some len) :
    len = countWhile pyIsSpace l +
      countWhile Char.isDigit (l.drop (countWhile pyIsSpace l)) + 2 ∧
    1 ≤ countWhile Char.isDigit (l.drop (countWhile pyIsSpace l)) ∧
    len ≤ l.length := by
  unfold khoanTry at h
  dsimp only at h
  by_cases hd : countWhile Char.isDigit (l.drop (countWhile pyIsSpace l)) = 0
  · rw [if_pos hd] at h
    exact absurd h (by simp)
  · rw [if_neg hd] at h
    by_cases hcond : ((l.drop (countWhile pyIsSpace l)).drop
          (countWhile Char.isDigit (l.drop (countWhile pyIsSpace l)))).head? = some '.' ∧
        ((((l.drop (countWhile pyIsSpace l)).drop
          (countWhile Char.isDigit (l.drop (countWhile pyIsSpace l)))).drop 1).head?.any
            pyIsSpace) = true
    · rw [if_pos hcond] at h
      injection h with h
      obtain ⟨hdot, hws⟩ := hcond
      have h1 : 0 < ((l.drop (countWhile pyIsSpace l)).drop
          (countWhile Char.isDigit (l.drop (countWhile pyIsSpace l)))).length :=
        head?_some_pos hdot
      have h2 : 0 < (((l.drop (countWhile pyIsSpace l)).drop
          (countWhile Char.isDigit (l.drop (countWhile pyIsSpace l)))).drop 1).length := by
        rcases ho : (((l.drop (countWhile pyIsSpace l)).drop
            (countWhile Char.isDigit (l.drop (countWhile pyIsSpace l)))).drop 1).head?
            with _ | c
        · rw [ho] at hws
          simp [Option.any] at hws
        · exact head?_some_pos ho
      have hw := countWhile_le pyIsSpace l
      simp only [List.length_drop] at h1 h2
      refine ⟨h.symm, by omega, by omega⟩
    · rw [if_neg hcond] at h
      exact absurd h (by simp)

theorem khoanTry_digit {l : Str} {len : Nat} (h : khoanTry l = some len) :
    ∃ c, l.get? (countWhile pyIsSpace l) = some c ∧ Char.isDigit c = true := by
  obtain ⟨-, hd, -⟩ := khoanTry_shape h
  obtain ⟨c, hc, hdig⟩ := @countWhile_head Char.isDigit
    (l.drop (countWhile pyIsSpace l)) (by omega)
  refine ⟨c, ?_, hdig⟩
  have h0 : (l.drop (countWhile pyIsSpace l)).get? 0 = some c := by
    cases hdrop : l.drop (countWhile pyIsSpace l) with
    | nil =>
      rw [hdrop] at hc
      simp at hc
    | cons x r =>
      rw [hdrop] at hc
      simpa using hc
  have hgd := List.get?_drop l (countWhile pyIsSpace l) 0
  rw [hgd] at h0
  simpa using h0

theorem khoanScan_ge :
    ∀ (t : Str) (p skip : Nat) (atStart : Bool) (x : Nat),
      x ∈ khoanScan t p skip atStart → p + skip ≤ x := by
  intro t
  induction t with
  | nil =>
    intro p skip atStart x hx
    simp [khoanScan] at hx
  | cons c rest ih =>
    intro p skip atStart x hx
    cases skip with
    | succ sk =>
      have := ih (p + 1) sk (c = '\n') x hx
      omega
    | zero =>
      by_cases hs : atStart = true
      · subst hs
        simp only [khoanScan, if_true] at hx
        rcases hk : khoanTry (c :: rest) with _ | len
        · rw [hk] at hx
          have := ih (p + 1) 0 (c = '\n') x hx
          omega
        · rw [hk] at hx
          rcases List.mem_cons.mp hx with rfl | hx
          · omega
          · have := ih (p + 1) (len - 1) (c = '\n') x hx
            omega
      · have hs' : atStart = false := by
          cases atStart
          · rfl
          · exact absurd rfl hs
        subst hs'
        simp only [khoanScan, Bool.false_eq_true, if_false] at hx
        have := ih (p + 1) 0 (c = '\n') x hx
        omega

end DocxChunker

namespace DocxChunker

theorem drop_ne_nil_lt {b : Str} {p : Nat} {c : Char} {rest : Str}
    (h : b.drop p = c :: rest) : p < b.length := by
  by_contra hc
  rw [List.drop_eq_nil_of_le (by omega)] at h
  exact absurd h (by simp)

theorem khoanScan_spec (b : Str) :
    ∀ (t : Str) (p skip : Nat) (atStart : Bool),
      t = b.drop p →
      (atStart = true → p = 0 ∨ b.get? (p - 1) = some '\n') →
      (∀ x ∈ khoanScan t p skip atStart,
        (x = 0 ∨ b.get? (x - 1) = some '\n') ∧
        ∃ len, khoanTry (b.drop x) = some len ∧ x + len ≤ b.length) ∧
      List.Chain' (fun x y => ∀ len, khoanTry (b.drop x) = some len → x + len ≤ y)
        (khoanScan t p skip atStart) := by
  intro t
  induction t with
  | nil =>
    intro p skip atStart _ _
    constructor
    · intro x hx
      simp [khoanScan] at hx
    · simp [khoanScan]
  | cons c rest ih =>
    intro p skip atStart ht hstart
    have h0 : (b.drop p).get? 0 = b.get? (p + 0) := List.get?_drop b p 0
    rw [← ht] at h0
    have hget : b.get? p = some c := by simpa using h0.symm
    have hrest : rest = b.drop (p + 1) := by
      have hdd : (b.drop p).drop 1 = b.drop (p + 1) := List.drop_drop 1 p b
      rw [← ht] at hdd
      simpa using hdd
    have hstart' : decide (c = '\n') = true → (p + 1) = 0 ∨ b.get? ((p + 1) - 1) = some '\n' := by
      intro hc
      right
      have hc' : c = '\n' := of_decide_eq_true hc
      simpa [hc'] using hget
    cases skip with
    | succ sk =>
      simp only [khoanScan]
      exact ih (p + 1) sk (decide (c = '\n')) hrest hstart'
    | zero =>
      by_cases hs : atStart = true
      · subst hs
        simp only [khoanScan, if_true]
        rcases hk : khoanTry (c :: rest) with _ | len
        · exact ih (p + 1) 0 (decide (c = '\n')) hrest hstart'
        · have hkb : khoanTry (b.drop p) = some len := by
            rw [ht] at hk
            exact hk
          have hshape := khoanTry_shape hk
          have hlenle : len ≤ (c :: rest).length := hshape.2.2
          have hplen : p < b.length := drop_ne_nil_lt ht.symm
          have hlenb : (c :: rest).length = b.length - p := by
            rw [ht]
            simp
          obtain ⟨ihall, ihchain⟩ := ih (p + 1) (len - 1) (decide (c = '\n')) hrest hstart'
          constructor
          · intro x hx
            rcases List.mem_cons.mp hx with rfl | hx
            · exact ⟨hstart rfl, len, hkb, by omega⟩
            · exact ihall x hx
          · rw [List.chain'_cons']
            refine ⟨?_, ihchain⟩
            intro y hy len' hlen'
            have hll : len = len' := by
              rw [hkb] at hlen'
              injection hlen' with hinj
            subst hll
            have hyge := khoanScan_ge rest (p + 1) (len - 1) (decide (c = '\n')) y
              (List.mem_of_mem_head? hy)
            have hlen2 : 2 ≤ len := by
              obtain ⟨h1, hd2, -⟩ := hshape
              omega
            omega
      · have hs' : atStart = false := by
          cases atStart
          · rfl
          · exact absurd rfl hs
        subst hs'
        simp only [khoanScan, Bool.false_eq_true, if_false]
        exact ih (p + 1) 0 (decide (c = '\n')) hrest hstart'

theorem khoanStarts_spec (b : Str) :
    (∀ x ∈ khoanStarts b,
      (x = 0 ∨ b.get? (x - 1) = some '\n') ∧
      ∃ len, khoanTry (b.drop x) = some len ∧ x + len ≤ b.length) ∧
    List.Chain' (fun x y => ∀ len, khoanTry (b.drop x) = some len → x + len ≤ y)
      (khoanStarts b) := by
  unfold khoanStarts
  exact khoanScan_spec b b 0 0 true (by simp) (fun _ => Or.inl rfl)

end DocxChunker

namespace DocxChunker

theorem lstrip_noop (p : Char → Bool) (l : Str)
    (h : ∀ c, l.head? = some c → p c = false) : lstripBy p l = l := by
  unfold lstripBy
  cases l with
  | nil => rfl
  | cons c rest =>
    have hc : ¬ p c = true := by
      rw [h c rfl]
      simp
    exact List.dropWhile_cons_of_neg hc

theorem rstrip_noop (p : Char → Bool) (l : Str)
    (h : ∀ c, l.getLast? = some c → p c = false) : rstripBy p l = l := by
  unfold rstripBy
  have hrev : ∀ c, l.reverse.head? = some c → p c = false := by
    intro c hc
    rw [List.head?_reverse] at hc
    exact h c hc
  have hid := lstrip_noop p l.reverse hrev
  unfold lstripBy at hid
  rw [hid, List.reverse_reverse]

theorem rstrip_one (p : Char → Bool) (mid : Str) (x : Char) (hx : p x = true)
    (h : ∀ c, mid.getLast? = some c → p c = false) : rstripBy p (mid ++ [x]) = mid := by
  unfold rstripBy
  rw [List.reverse_append]
  simp only [List.reverse_cons, List.reverse_nil, List.nil_append, List.singleton_append]
  rw [List.dropWhile_cons_of_pos hx]
  have hrev : ∀ c, mid.reverse.head? = some c → p c = false := by
    intro c hc
    rw [List.head?_reverse] at hc
    exact h c hc
  have hid := lstrip_noop p mid.reverse hrev
  unfold lstripBy at hid
  rw [hid, List.reverse_reverse]

theorem sliceN_head {b : Str} {s e : Nat} (hse : s < e) :
    (sliceN b s e).head? = b.get? s := by
  rw [← List.get?_zero, sliceN_get? (show 0 < e - s by omega), Nat.add_zero]

theorem sliceN_last {b : Str} {s e : Nat} (hse : s < e) (heb : e ≤ b.length) :
    (sliceN b s e).getLast? = b.get? (e - 1) := by
  have hlen : (sliceN b s e).length = e - s := sliceN_length (by omega) heb
  rw [List.getLast?_eq_get?, hlen, sliceN_get? (show e - s - 1 < e - s by omega)]
  congr 1
  omega

theorem sliceN_snoc {b : Str} {s e : Nat} {c : Char} (hse : s < e)
    (hc : b.get? (e - 1) = some c) :
    sliceN b s e = sliceN b s (e - 1) ++ [c] := by
  unfold sliceN
  have h1 : e - s = (e - 1 - s) + 1 := by omega
  rw [h1, List.take_succ]
  congr 1
  have hg : (b.drop s).get? (e - 1 - s) = b.get? (e - 1) := by
    rw [List.get?_drop]
    congr 1
    omega
  rw [← List.get?_eq_getElem?, hg, hc]
  rfl

theorem sliceN_full (b : Str) : sliceN b 0 b.length = b := by
  unfold sliceN
  simp

theorem stripNl_noop {l : Str}
    (hh : ∀ c, l.head? = some c → c ≠ '\n')
    (hl : ∀ c, l.getLast? = some c → c ≠ '\n') : stripNl l = l := by
  unfold stripNl
  rw [rstrip_noop _ _ (fun c hc => decide_eq_false (hl c hc)),
      lstrip_noop _ _ (fun c hc => decide_eq_false (hh c hc))]

theorem stripNl_mid {b : Str} {s e : Nat} (h2 : s + 2 ≤ e) (heb : e ≤ b.length)
    (hs : ∀ c, b.get? s = some c → c ≠ '\n')
    (he1 : b.get? (e - 1) = some '\n')
    (he2 : ∀ c, b.get? (e - 2) = some c → c ≠ '\n') :
    stripNl (sliceN b s e) = sliceN b s (e - 1) := by
  have hsnoc : sliceN b s e = sliceN b s (e - 1) ++ ['\n'] := sliceN_snoc (by omega) he1
  have hglast : (sliceN b s (e - 1)).getLast? = b.get? (e - 2) := by
    have h := @sliceN_last b s (e - 1) (by omega) (by omega)
    rw [h]
    congr 1
  have hhead : (sliceN b s (e - 1)).head? = b.get? s := @sliceN_head b s (e - 1) (by omega)
  unfold stripNl
  rw [hsnoc, rstrip_one _ _ _ (by decide)
    (fun c hc => decide_eq_false (he2 c (by rw [← hglast]; exact hc)))]
  exact lstrip_noop _ _ (fun c hc => decide_eq_false (hs c (by rw [← hhead]; exact hc)))

end DocxChunker

namespace DocxChunker

theorem body_start_ne_nl {body : Str} (hstrip : pyStrip body = body)
    (hnl : noConsecNl body = true) {s : Nat}
    (h0 : s = 0 ∨ body.get? (s - 1) = some '\n') :
    ∀ c, body.get? s = some c → c ≠ '\n' := by
  intro c hc hcon
  subst hcon
  rcases Nat.eq_zero_or_pos s with rfl | hpos
  · have hhd : body.head? = some '\n' := by
      rw [← List.get?_zero]
      exact hc
    exact absurd (pyStrip_self_head hstrip '\n' hhd) (by decide)
  · rcases h0 with rfl | hprev
    · omega
    · have hadj := noConsecNl_adj body hnl (s - 1) hprev
      have hs1 : s - 1 + 1 = s := by omega
      rw [hs1] at hadj
      exact hadj hc

theorem body_prev2_ne_nl {body : Str} (hstrip : pyStrip body = body)
    (hnl : noConsecNl body = true) {e : Nat} (hpos : 0 < e)
    (he1 : body.get? (e - 1) = some '\n') :
    ∀ c, body.get? (e - 2) = some c → c ≠ '\n' := by
  intro c hc hcon
  subst hcon
  rcases Nat.lt_or_ge e 2 with h2 | h2
  · have hhd : body.head? = some '\n' := by
      rw [← List.get?_zero]
      have h0 : e - 2 = 0 := by omega
      rw [h0] at hc
      exact hc
    exact absurd (pyStrip_self_head hstrip '\n' hhd) (by decide)
  · have hadj := noConsecNl_adj body hnl (e - 2) hc
    have he : e - 2 + 1 = e - 1 := by omega
    rw [he] at hadj
    exact hadj he1

theorem start_ge_two {body : Str} (hstrip : pyStrip body = body) {s : Nat} (hpos : 0 < s)
    (hprev : body.get? (s - 1) = some '\n') : 2 ≤ s := by
  by_contra hcon
  have hs1 : s = 1 := by omega
  subst hs1
  have hhd : body.head? = some '\n' := by
    rw [← List.get?_zero]
    exact hprev
  exact absurd (pyStrip_self_head hstrip '\n' hhd) (by decide)

theorem body_last_ne_nl {body : Str} (hbne : body ≠ []) (hstrip : pyStrip body = body) :
    ∀ c, body.get? (body.length - 1) = some c → c ≠ '\n' := by
  intro c hc hcon
  subst hcon
  have hgl : body.getLast? = some '\n' := by
    rw [List.getLast?_eq_get?]
    exact hc
  exact absurd (pyStrip_self_getLast hstrip '\n' hgl) (by decide)

theorem seg_strip_ne_of_digit {seg : Str} {j : Nat} {c : Char}
    (hj : seg.get? j = some c) (hd : Char.isDigit c = true) : pyStrip seg ≠ [] := by
  intro hcon
  have hmem : c ∈ seg := List.get?_mem hj
  have hws := (pyStrip_eq_nil_iff seg).mp hcon c hmem
  have hns := digit_not_ws hd
  rw [hns] at hws
  exact Bool.false_ne_true hws

theorem seg_strip_ne_of_head {seg : Str} {c : Char}
    (hh : seg.head? = some c) (hns : pyIsSpace c = false) : pyStrip seg ≠ [] := by
  intro hcon
  have hmem : c ∈ seg := by
    cases seg with
    | nil => simp at hh
    | cons x r =>
      injection hh with hh
      subst hh
      exact List.mem_cons_self _ _
  have hws := (pyStrip_eq_nil_iff seg).mp hcon c hmem
  rw [hns] at hws
  exact Bool.false_ne_true hws

theorem startBlock_mid {body : Str} (hstrip : pyStrip body = body)
    (hnl : noConsecNl body = true) {s e len : Nat}
    (hs0 : s = 0 ∨ body.get? (s - 1) = some '\n')
    (hlen : khoanTry (body.drop s) = some len)
    (hsle : s + len ≤ e) (helt : e < body.length)
    (he1 : body.get? (e - 1) = some '\n') :
    pyStrip (stripNl (sliceN body s e)) ≠ [] ∧
    (stripNl (sliceN body s e)).length = e - s - (if e < body.length then 1 else 0) := by
  obtain ⟨hshape, hd1, hlenle⟩ := khoanTry_shape hlen
  have h2 : s + 2 ≤ e := by omega
  have hs_ne := body_start_ne_nl hstrip hnl hs0
  have he2 := body_prev2_ne_nl hstrip hnl (show 0 < e by omega) he1
  have hseq : stripNl (sliceN body s e) = sliceN body s (e - 1) :=
    stripNl_mid h2 (by omega) hs_ne he1 he2
  obtain ⟨c, hc, hdig⟩ := khoanTry_digit hlen
  have hgd := List.get?_drop body s (countWhile pyIsSpace (body.drop s))
  rw [hgd] at hc
  have hjlt : countWhile pyIsSpace (body.drop s) < (e - 1) - s := by omega
  have hsg : (sliceN body s (e - 1)).get? (countWhile pyIsSpace (body.drop s)) = some c := by
    rw [sliceN_get? hjlt]
    exact hc
  refine ⟨?_, ?_⟩
  · rw [hseq]
    exact seg_strip_ne_of_digit hsg hdig
  · rw [hseq, sliceN_length (show s ≤ e - 1 by omega) (show e - 1 ≤ body.length by omega),
      if_pos helt]
    omega

theorem startBlock_last {body : Str} (hbne : body ≠ []) (hstrip : pyStrip body = body)
    (hnl : noConsecNl body = true) {s len : Nat}
    (hs0 : s = 0 ∨ body.get? (s - 1) = some '\n')
    (hlen : khoanTry (body.drop s) = some len)
    (hsle : s + len ≤ body.length) :
    pyStrip (stripNl (sliceN body s body.length)) ≠ [] ∧
    (stripNl (sliceN body s body.length)).length =
      body.length - s - (if body.length < body.length then 1 else 0) := by
  obtain ⟨hshape, hd1, hlenle⟩ := khoanTry_shape hlen
  have hslt : s < body.length := by omega
  have hs_ne := body_start_ne_nl hstrip hnl hs0
  have hl_ne := body_last_ne_nl hbne hstrip
  have hseq : stripNl (sliceN body s body.length) = sliceN body s body.length := by
    apply stripNl_noop
    · intro c hc
      refine hs_ne c ?_
      rw [← @sliceN_head body s body.length hslt]
      exact hc
    · intro c hc
      refine hl_ne c ?_
      rw [← @sliceN_last body s body.length hslt (le_refl _)]
      exact hc
  obtain ⟨c, hc, hdig⟩ := khoanTry_digit hlen
  have hgd := List.get?_drop body s (countWhile pyIsSpace (body.drop s))
  rw [hgd] at hc
  have hjlt : countWhile pyIsSpace (body.drop s) < body.length - s := by omega
  have hsg : (sliceN body s body.length).get? (countWhile pyIsSpace (body.drop s)) = some c := by
    rw [sliceN_get? hjlt]
    exact hc
  refine ⟨?_, ?_⟩
  · rw [hseq]
    exact seg_strip_ne_of_digit hsg hdig
  · rw [hseq, sliceN_length (le_of_lt hslt) (le_refl _), if_neg (lt_irrefl _)]
    omega

end DocxChunker

namespace DocxChunker

theorem pairBlocks_facts {body : Str} (hbne : body ≠ []) (hstrip : pyStrip body = body)
    (hnl : noConsecNl body = true) :
    ∀ (rest : List Nat) (s : Nat),
      (∀ x ∈ s :: rest,
        (x = 0 ∨ body.get? (x - 1) = some '\n') ∧
        ∃ len, khoanTry (body.drop x) = some len ∧ x + len ≤ body.length) →
      List.Chain' (fun x y => ∀ len, khoanTry (body.drop x) = some len → x + len ≤ y)
        (s :: rest) →
      chainB s (pairBlocks (s :: rest) body.length) body.length ∧
      ∀ a b, (a, b) ∈ pairBlocks (s :: rest) body.length →
        pyStrip (stripNl (sliceN body a b)) ≠ [] ∧
        (stripNl (sliceN body a b)).length = b - a - (if b < body.length then 1 else 0) := by
  intro rest
  induction rest with
  | nil =>
    intro s hall hchain
    obtain ⟨hs0, len, hlen, hsle⟩ := hall s (List.mem_cons_self _ _)
    obtain ⟨hshape, hd1, -⟩ := khoanTry_shape hlen
    have hslt : s < body.length := by omega
    simp only [pairBlocks]
    constructor
    · simp only [chainB]
      exact ⟨trivial, hslt, trivial⟩
    · intro a b hab
      have hab' : a = s ∧ b = body.length := by
        simp only [List.mem_singleton, Prod.mk.injEq] at hab
        exact hab
      obtain ⟨rfl, rfl⟩ := hab'
      exact startBlock_last hbne hstrip hnl hs0 hlen hsle
  | cons s2 r ih =>
    intro s hall hchain
    obtain ⟨hRss2, hchain2⟩ := List.chain'_cons.mp hchain
    have hall2 : ∀ x ∈ s2 :: r,
        (x = 0 ∨ body.get? (x - 1) = some '\n') ∧
        ∃ len, khoanTry (body.drop x) = some len ∧ x + len ≤ body.length :=
      fun x hx => hall x (List.mem_cons_of_mem _ hx)
    obtain ⟨hchainP, hPB⟩ := ih s2 hall2 hchain2
    obtain ⟨hs0, len, hlen, hslen⟩ := hall s (List.mem_cons_self _ _)
    obtain ⟨hshape, hd1, -⟩ := khoanTry_shape hlen
    obtain ⟨hs20, len2, hlen2, hslen2⟩ :=
      hall s2 (List.mem_cons_of_mem _ (List.mem_cons_self _ _))
    obtain ⟨hshape2, hd12, -⟩ := khoanTry_shape hlen2
    have hsle : s + len ≤ s2 := hRss2 len hlen
    have hs2lt : s2 < body.length := by omega
    have hs2pos : 0 < s2 := by omega
    have he1 : body.get? (s2 - 1) = some '\n' := by
      rcases hs20 with rfl | h
      · exact absurd hs2pos (Nat.lt_irrefl 0)
      · exact h
    simp only [pairBlocks]
    constructor
    · simp only [chainB]
      exact ⟨trivial, by omega, hchainP⟩
    · intro a b hab
      rcases List.mem_cons.mp hab with heq | hmem
      · rw [Prod.mk.injEq] at heq
        obtain ⟨rfl, rfl⟩ := heq
        exact startBlock_mid hstrip hnl hs0 hlen hsle hs2lt he1
      · exact hPB a b hmem

theorem blocksOf_facts {body : Str} (hbne : body ≠ []) (hstrip : pyStrip body = body)
    (hnl : noConsecNl body = true) :
    chainB 0 (blocksOf body) body.length ∧
    ∀ a b, (a, b) ∈ blocksOf body →
      pyStrip (stripNl (sliceN body a b)) ≠ [] ∧
      (stripNl (sliceN body a b)).length = b - a - (if b < body.length then 1 else 0) := by
  obtain ⟨hall0, hchain0⟩ := khoanStarts_spec body
  rcases hst : khoanStarts body with _ | ⟨s0, rest⟩
  · unfold blocksOf
    simp only [hst]
    have hn : 0 < body.length := List.length_pos.mpr hbne
    constructor
    · simp only [chainB]
      exact ⟨trivial, hn, trivial⟩
    · intro a b hab
      have hab' : a = 0 ∧ b = body.length := by
        simp only [List.mem_singleton, Prod.mk.injEq] at hab
        exact hab
      obtain ⟨rfl, rfl⟩ := hab'
      have hfull : sliceN body 0 body.length = body := sliceN_full body
      have hnoop : stripNl body = body := by
        apply stripNl_noop
        · intro c hc hcon
          subst hcon
          exact absurd (pyStrip_self_head hstrip '\n' hc) (by decide)
        · intro c hc hcon
          subst hcon
          exact absurd (pyStrip_self_getLast hstrip '\n' hc) (by decide)
      constructor
      · rw [hfull, hnoop, hstrip]
        exact hbne
      · rw [hfull, hnoop, if_neg (lt_irrefl _)]
        omega
  · rw [hst] at hall0 hchain0
    obtain ⟨hchainP, hPB⟩ := pairBlocks_facts hbne hstrip hnl rest s0 hall0 hchain0
    unfold blocksOf
    simp only [hst]
    by_cases h0 : 0 < s0
    · rw [if_pos h0]
      obtain ⟨hs00, len0, hlen0, hsle0⟩ := hall0 s0 (List.mem_cons_self _ _)
      obtain ⟨hshape0, hd10, -⟩ := khoanTry_shape hlen0
      have he1 : body.get? (s0 - 1) = some '\n' := by
        rcases hs00 with rfl | h
        · exact absurd h0 (Nat.lt_irrefl 0)
        · exact h
      have hs02 : 2 ≤ s0 := start_ge_two hstrip h0 he1
      have hs0lt : s0 < body.length := by omega
      have he2 := body_prev2_ne_nl hstrip hnl h0 he1
      have hs_ne := body_start_ne_nl hstrip hnl (Or.inl rfl)
      simp only [List.singleton_append]
      constructor
      · simp only [chainB]
        exact ⟨trivial, h0, hchainP⟩
      · have hpre : pyStrip (stripNl (sliceN body 0 s0)) ≠ [] ∧
            (stripNl (sliceN body 0 s0)).length =
              s0 - 0 - (if s0 < body.length then 1 else 0) := by
          have hseq : stripNl (sliceN body 0 s0) = sliceN body 0 (s0 - 1) :=
            stripNl_mid (by omega) (by omega) hs_ne he1 he2
          obtain ⟨c, hcc⟩ : ∃ c, body.head? = some c := by
            cases body with
            | nil => exact absurd rfl hbne
            | cons x r2 => exact ⟨x, rfl⟩
          have hns := pyStrip_self_head hstrip c hcc
          have hget0 : body.get? 0 = some c := by
            rw [List.get?_zero]
            exact hcc
          have hsh : (sliceN body 0 (s0 - 1)).head? = body.get? 0 :=
            @sliceN_head body 0 (s0 - 1) (by omega)
          constructor
          · rw [hseq]
            refine seg_strip_ne_of_head ?_ hns
            rw [hsh]
            exact hget0
          · rw [hseq, sliceN_length (by omega) (by omega), if_pos hs0lt]
            omega
        intro a b hab
        rcases List.mem_cons.mp hab with heq | hmem
        · rw [Prod.mk.injEq] at heq
          obtain ⟨rfl, rfl⟩ := heq
          exact hpre
        · exact hPB a b hmem
    · rw [if_neg h0]
      have hs00 : s0 = 0 := by omega
      subst hs00
      simp only [List.nil_append]
      exact ⟨hchainP, hPB⟩

theorem chainB_le (n : Nat) : ∀ (bl : List (Nat × Nat)) (lo : Nat), chainB lo bl n → lo ≤ n := by
  intro bl
  induction bl with
  | nil =>
    intro lo h
    simp only [chainB] at h
    omega
  | cons se rest ih =>
    intro lo h
    obtain ⟨s, e⟩ := se
    simp only [chainB] at h
    obtain ⟨hlo, hse, hrest⟩ := h
    subst hlo
    have := ih e hrest
    omega

theorem chainB_sum_len (n : Nat) (g : Nat × Nat → Str) :
    ∀ (bl : List (Nat × Nat)) (lo : Nat), chainB lo bl n →
      (∀ a b, (a, b) ∈ bl → (g (a, b)).length = b - a - (if b < n then 1 else 0)) →
      bl ≠ [] →
      ((bl.map g).map List.length).sum + (bl.length - 1) + lo = n := by
  intro bl
  induction bl with
  | nil =>
    intro lo _ _ hne
    exact absurd rfl hne
  | cons se rest ih =>
    intro lo hch hlen _
    obtain ⟨s, e⟩ := se
    simp only [chainB] at hch
    obtain ⟨hlo, hse, hrest⟩ := hch
    have hg := hlen s e (List.mem_cons_self _ _)
    cases rest with
    | nil =>
      simp only [chainB] at hrest
      rw [if_neg (show ¬ e < n by omega)] at hg
      simp only [List.map_cons, List.map_nil, List.sum_cons, List.sum_nil, List.length_cons,
        List.length_nil]
      omega
    | cons se2 r2 =>
      have hlt : e < n := by
        obtain ⟨s2, e2⟩ := se2
        simp only [chainB] at hrest
        obtain ⟨hlo2, hse2, hrest2⟩ := hrest
        subst hlo2
        have := chainB_le n r2 e2 hrest2
        omega
      rw [if_pos hlt] at hg
      have ihres := ih e hrest (fun a b hab => hlen a b (List.mem_cons_of_mem _ hab)) (by simp)
      simp only [List.map_cons, List.sum_cons, List.length_cons] at ihres ⊢
      omega

theorem joinBuf_cons (bf sg : Str) (rest : List Str) :
    joinBuf bf (sg :: rest) = joinBuf (if bf = [] then sg else bf ++ '\n' :: sg) rest := by
  unfold joinBuf
  simp only [List.foldl_cons]

theorem joinBuf_strip_ne :
    ∀ (segs : List Str) (bf : Str), pyStrip bf ≠ [] → pyStrip (joinBuf bf segs) ≠ [] := by
  intro segs
  induction segs with
  | nil =>
    intro bf h
    simpa [joinBuf] using h
  | cons sg rest ih =>
    intro bf h
    have hbf : bf ≠ [] := by
      intro hcon
      rw [hcon] at h
      exact h rfl
    rw [joinBuf_cons, if_neg hbf]
    exact ih (bf ++ '\n' :: sg) (pyStrip_append_ne _ h)

theorem joinBuf_nil_cons (sg : Str) (rest : List Str) :
    joinBuf [] (sg :: rest) = joinBuf sg rest := by
  rw [joinBuf_cons, if_pos rfl]

end DocxChunker

namespace DocxChunker

theorem sacBlocks_buf_inv (hd ch body : Str) (fuel : Nat) :
    ∀ (bl : List (Nat × Nat)) (st st' : SacSt),
      (∀ s e, (s, e) ∈ bl → pyStrip (stripNl (sliceN body s e)) ≠ []) →
      (st.buf = [] ∨ pyStrip st.buf ≠ []) →
      sacBlocks hd ch body fuel bl st = some st' →
      st'.buf = [] ∨ pyStrip st'.buf ≠ [] := by
  intro bl
  induction bl with
  | nil =>
    intro st st' _ hbuf h
    simp only [sacBlocks] at h
    injection h with h
    subst h
    exact hbuf
  | cons se rest ih =>
    intro st st' hsegs hbuf h
    obtain ⟨s, e⟩ := se
    have hseg : pyStrip (stripNl (sliceN body s e)) ≠ [] :=
      hsegs s e (List.mem_cons_self _ _)
    have hsegs' : ∀ a b, (a, b) ∈ rest → pyStrip (stripNl (sliceN body a b)) ≠ [] :=
      fun a b hab => hsegs a b (List.mem_cons_of_mem _ hab)
    simp only [sacBlocks] at h
    by_cases h1 : hd.length + 1 + (stripNl (sliceN body s e)).length ≤ MAX_CONTENT_LEN
    · rw [if_pos h1] at h
      by_cases h2 : hd.length + 1 +
          (if st.buf = [] then stripNl (sliceN body s e)
           else st.buf ++ '\n' :: stripNl (sliceN body s e)).length ≤ MAX_CONTENT_LEN
      · rw [if_pos h2] at h
        refine ih _ st' hsegs' ?_ h
        right
        dsimp only
        by_cases hb : st.buf = []
        · rw [if_pos hb]
          exact hseg
        · rw [if_neg hb]
          rcases hbuf with hbuf | hbuf
          · exact absurd hbuf hb
          · exact pyStrip_append_ne _ hbuf
      · rw [if_neg h2] at h
        exact ih _ st' hsegs' (Or.inr hseg) h
    · rw [if_neg h1] at h
      rcases hcs : sacSentenceChunks hd ch (stripNl (sliceN body s e)) fuel with _ | cs
      · rw [hcs] at h
        exact absurd h (by simp)
      · rw [hcs] at h
        refine ih _ st' hsegs' ?_ h
        left
        dsimp only
        unfold flush_buf
        by_cases hfb : pyStrip st.buf = []
        · rw [if_pos hfb]
          rcases hbuf with hbuf | hbuf
          · exact hbuf
          · exact absurd hfb hbuf
        · rw [if_neg hfb]

theorem sacBlocks_split (hd ch body : Str) (fuel : Nat)
    (hh : hd.length + 2 ≤ MAX_CONTENT_LEN) (hfuel : body.length < fuel) :
    ∀ (bl : List (Nat × Nat)) (st st' : SacSt),
      (∀ s e, (s, e) ∈ bl → pyStrip (stripNl (sliceN body s e)) ≠ []) →
      (st.buf = [] ∨ pyStrip st.buf ≠ []) →
      sacBlocks hd ch body fuel bl st = some st' →
      (st'.out = st.out ∧
        st'.buf = joinBuf st.buf (bl.map (fun se => stripNl (sliceN body se.1 se.2))) ∧
        (bl ≠ [] → hd.length + 1 + st'.buf.length ≤ MAX_CONTENT_LEN)) ∨
      st.out.length + 2 ≤ st'.out.length + (if pyStrip st'.buf = [] then 0 else 1) := by
  intro bl
  induction bl with
  | nil =>
    intro st st' _ _ h
    simp only [sacBlocks] at h
    injection h with h
    subst h
    left
    refine ⟨rfl, ?_, fun hc => absurd rfl hc⟩
    simp [joinBuf]
  | cons se rest ih =>
    intro st st' hsegs hbuf h
    obtain ⟨s, e⟩ := se
    have hseg : pyStrip (stripNl (sliceN body s e)) ≠ [] :=
      hsegs s e (List.mem_cons_self _ _)
    have hsegs' : ∀ a b, (a, b) ∈ rest → pyStrip (stripNl (sliceN body a b)) ≠ [] :=
      fun a b hab => hsegs a b (List.mem_cons_of_mem _ hab)
    simp only [sacBlocks] at h
    by_cases h1 : hd.length + 1 + (stripNl (sliceN body s e)).length ≤ MAX_CONTENT_LEN
    · rw [if_pos h1] at h
      by_cases h2 : hd.length + 1 +
          (if st.buf = [] then stripNl (sliceN body s e)
           else st.buf ++ '\n' :: stripNl (sliceN body s e)).length ≤ MAX_CONTENT_LEN
      · rw [if_pos h2] at h
        have hbuf2 : (SacSt.mk st.out (if st.buf = [] then stripNl (sliceN body s e)
            else st.buf ++ '\n' :: stripNl (sliceN body s e))).buf = [] ∨
            pyStrip (SacSt.mk st.out (if st.buf = [] then stripNl (sliceN body s e)
            else st.buf ++ '\n' :: stripNl (sliceN body s e))).buf ≠ [] := by
          right
          dsimp only
          by_cases hb : st.buf = []
          · rw [if_pos hb]
            exact hseg
          · rw [if_neg hb]
            rcases hbuf with hbuf | hbuf
            · exact absurd hbuf hb
            · exact pyStrip_append_ne _ hbuf
        rcases ih _ st' hsegs' hbuf2 h with ⟨hout, hbufeq, hlast⟩ | hge
        · left
          refine ⟨hout, ?_, ?_⟩
          · rw [hbufeq, List.map_cons, joinBuf_cons]
          · intro _
            by_cases hre : rest = []
            · subst hre
              have hbeq : st'.buf = (if st.buf = [] then stripNl (sliceN body s e)
                  else st.buf ++ '\n' :: stripNl (sliceN body s e)) := by
                rw [hbufeq]
                simp [joinBuf]
              rw [hbeq]
              exact h2
            · exact hlast hre
        · right
          dsimp only at hge
          exact hge
      · rw [if_neg h2] at h
        have hbne2 : st.buf ≠ [] := by
          intro hcon
          rw [if_pos hcon] at h2
          exact h2 h1
        have hbstrip : pyStrip st.buf ≠ [] := by
          rcases hbuf with hbuf | hbuf
          · exact absurd hbuf hbne2
          · exact hbuf
        obtain ⟨ex1, hex1, hlen1, -⟩ := flush_buf_out_eq hd ch st
        have hex1len : ex1.length = 1 := hlen1 hbstrip
        rcases ih _ st' hsegs' (Or.inr hseg) h with ⟨hout, hbufeq, hlast⟩ | hge
        · right
          have hsne : pyStrip st'.buf ≠ [] := by
            rw [hbufeq]
            exact joinBuf_strip_ne _ _ hseg
          rw [if_neg hsne]
          have hout2 : st'.out.length = st.out.length + 1 := by
            dsimp only at hout
            rw [hout, hex1]
            simp [hex1len]
          omega
        · right
          dsimp only at hge
          rw [hex1] at hge
          simp only [List.length_append, hex1len] at hge
          omega
    · rw [if_neg h1] at h
      have hsegfuel : (stripNl (sliceN body s e)).length < fuel :=
        lt_of_le_of_lt (le_trans (length_stripNl_le _) (length_sliceN_le body s e)) hfuel
      obtain ⟨cs, hcs, hcs2⟩ := sacSentenceChunks_some hd ch _ fuel hh hsegfuel
      rw [hcs] at h
      have hcsge : 2 ≤ cs.length := hcs2 (by omega)
      obtain ⟨ex1, hex1, -, -⟩ := flush_buf_out_eq hd ch st
      have hst1buf : (flush_buf hd ch st).buf = [] ∨
          pyStrip (flush_buf hd ch st).buf ≠ [] := by
        left
        unfold flush_buf
        by_cases hfb : pyStrip st.buf = []
        · rw [if_pos hfb]
          rcases hbuf with hbuf | hbuf
          · exact hbuf
          · exact absurd hfb hbuf
        · rw [if_neg hfb]
      rcases ih (SacSt.mk ((flush_buf hd ch st).out ++ cs) (flush_buf hd ch st).buf) st'
          hsegs' hst1buf h with ⟨hout, hbufeq, -⟩ | hge
      · right
        dsimp only at hout
        rw [hex1] at hout
        have hlen : st'.out.length = st.out.length + ex1.length + cs.length := by
          rw [hout]
          simp only [List.length_append]
        by_cases hsb : pyStrip st'.buf = []
        · rw [if_pos hsb]
          omega
        · rw [if_neg hsb]
          omega
      · right
        dsimp only at hge
        rw [hex1] at hge
        simp only [List.length_append] at hge
        omega

end DocxChunker

namespace DocxChunker

/-- Claim C2 (amended): for a flushed article whose header line has length
at most `MAX_CONTENT_LEN - 2` and whose body text is non-empty, equal to
its own whitespace-strip and free of consecutive line breaks, the splitter
returns, emits at least one chunk, and emits more than one exactly when
`len(header_line) + 1 + len(body_text)` exceeds `MAX_CONTENT_LEN`. -/
theorem C2_amended_threshold :
    ∀ (hd body ch : Str),
      hd.length + 2 ≤ MAX_CONTENT_LEN →
      body ≠ [] →
      pyStrip body = body →
      noConsecNl body = true →
      ∃ cs, split_article_content hd body ch = some cs ∧ 1 ≤ cs.length ∧
        (2 ≤ cs.length ↔ MAX_CONTENT_LEN < hd.length + 1 + body.length) := by
  intro hd body ch hh hbne hstrip hnl
  by_cases hfit : hd.length + 1 + body.length ≤ MAX_CONTENT_LEN
  · have hred : split_article_content hd body ch =
        some [⟨hd ++ '\n' :: body, ch, hd⟩] := by
      unfold split_article_content
      dsimp only
      rw [if_pos hbne]
      rw [if_pos (show (hd ++ '\n' :: body).length ≤ MAX_CONTENT_LEN by
        simp only [List.length_append, List.length_cons]
        omega)]
    refine ⟨_, hred, by simp, ?_⟩
    constructor
    · intro h2
      simp at h2
    · intro hov
      omega
  · have hover : MAX_CONTENT_LEN < hd.length + 1 + body.length := by omega
    obtain ⟨st', hst'⟩ := sacBlocks_some hd ch body (body.length + 1) hh (by omega)
      (blocksOf body) ⟨[], []⟩
    have hred : split_article_content hd body ch =
        some (if st'.buf ≠ [] then (flush_buf hd ch st').out else st'.out) := by
      unfold split_article_content
      dsimp only
      rw [if_pos hbne]
      rw [if_neg (show ¬ (hd ++ '\n' :: body).length ≤ MAX_CONTENT_LEN by
        simp only [List.length_append, List.length_cons]
        omega)]
      rw [hst']
    obtain ⟨hchain, hPB⟩ := blocksOf_facts hbne hstrip hnl
    have hsegs : ∀ s e, (s, e) ∈ blocksOf body → pyStrip (stripNl (sliceN body s e)) ≠ [] :=
      fun s e hm => (hPB s e hm).1
    have hblne : blocksOf body ≠ [] := by
      intro hcon
      rw [hcon] at hchain
      simp only [chainB] at hchain
      have hpos : 0 < body.length := List.length_pos.mpr hbne
      omega
    rcases sacBlocks_split hd ch body (body.length + 1) hh (by omega)
        (blocksOf body) ⟨[], []⟩ st' hsegs (Or.inl rfl) hst'
      with ⟨hout, hbufeq, hlast⟩ | hge
    · exfalso
      have hbound := hlast hblne
      dsimp only at hbufeq
      have hsum := chainB_sum_len body.length (fun se => stripNl (sliceN body se.1 se.2))
        (blocksOf body) 0 hchain (fun a b hm => (hPB a b hm).2) hblne
      rcases hbl : (blocksOf body).map (fun se => stripNl (sliceN body se.1 se.2))
          with _ | ⟨sg0, sgs⟩
      · rcases hbl2 : blocksOf body with _ | ⟨x, xs⟩
        · exact hblne hbl2
        · rw [hbl2] at hbl
          simp at hbl
      · rw [hbl, joinBuf_nil_cons] at hbufeq
        have hsg0 : sg0 ≠ [] := by
          have hmm : sg0 ∈ (blocksOf body).map (fun se => stripNl (sliceN body se.1 se.2)) := by
            rw [hbl]
            exact List.mem_cons_self _ _
          obtain ⟨ab, hmem, heq⟩ := List.mem_map.mp hmm
          obtain ⟨a, b⟩ := ab
          dsimp only at heq
          have hne := hsegs a b hmem
          rw [heq] at hne
          intro hcon
          rw [hcon] at hne
          exact hne rfl
        have hjl := joinBuf_length sgs sg0 hsg0
        rw [hbl] at hsum
        simp only [List.map_cons, List.sum_cons] at hsum
        have hll : (blocksOf body).length = sgs.length + 1 := by
          have hlen2 := congrArg List.length hbl
          simp only [List.length_map, List.length_cons] at hlen2
          omega
        rw [hbufeq, hjl] at hbound
        omega
    · have hinv := sacBlocks_buf_inv hd ch body (body.length + 1) (blocksOf body)
        ⟨[], []⟩ st' hsegs (Or.inl rfl) hst'
      dsimp only at hge
      simp only [List.length_nil] at hge
      rcases hinv with hbe | hbs
      · rw [hbe, if_pos (show pyStrip ([] : Str) = [] from rfl)] at hge
        refine ⟨st'.out, ?_, by omega, ?_⟩
        · rw [hred, hbe]
          rw [if_neg (show ¬ ([] : Str) ≠ [] from fun hc => hc rfl)]
        · constructor
          · intro _
            exact hover
          · intro _
            omega
      · rw [if_neg hbs] at hge
        have hbne2 : st'.buf ≠ [] := by
          intro hcon
          rw [hcon] at hbs
          exact hbs rfl
        obtain ⟨ex, hex, hlen1, -⟩ := flush_buf_out_eq hd ch st'
        have hexlen := hlen1 hbs
        refine ⟨(flush_buf hd ch st').out, ?_, ?_, ?_⟩
        · rw [hred, if_pos hbne2]
        · rw [hex]
          simp only [List.length_append]
          omega
        · constructor
          · intro _
            exact hover
          · intro _
            rw [hex]
            simp only [List.length_append]
            omega

end DocxChunker

namespace DocxChunker

open Inputs

/-- Witness for the amended C2 at a concrete article: header line
`"Điều 1."` and stripped one-line body `"xin chao"` — the splitter returns
chunks, at least one, and the `MAX_CONTENT_LEN` threshold test agrees with
the chunk count. -/
theorem C2_amended_threshold_witness :
    bodyW ≠ [] ∧
    ∃ cs, split_article_content hdrD1 bodyW [] = some cs ∧ 1 ≤ cs.length ∧
      (2 ≤ cs.length ↔ MAX_CONTENT_LEN < hdrD1.length + 1 + bodyW.length) :=
  ⟨by decide, C2_amended_threshold hdrD1 bodyW [] (by decide) (by decide)
    (by decide) (by decide)⟩

end DocxChunker
